import Mathlib

/-!
ecclib: modular limb arithmetic, Montgomery transform, Python curve binding.

A shallow embedding of

* `src/src/mpzmod.c` (`_mpn_modadd`, `_mpn_modsub`), on top of a model of the
  GMP `mpn` primitives the two routines call (`mpn_add`, `mpn_sub`, `mpn_cmp`,
  `MPN_NORMALIZE`, `MPZ_REALLOC`);
* the Montgomery to short Weierstrass change of variables documented in
  `src/include/ecurve.h`;
* the constructors of `src/python/pycurve.c`.

Limbs are natural numbers below `2 ^ nb`, where `nb` stands for the platform
constant `GMP_NUMB_BITS` of `gmp.h`; limb arrays are little-endian lists.
-/

namespace Ecclib

/-! ## GMP data model -/

/-- The limb base `2 ^ GMP_NUMB_BITS`; `nb` is the platform's `GMP_NUMB_BITS`. -/
def limbBase (nb : Nat) : Nat := 2 ^ nb

/-- The GMP integer `__mpz_struct`: `_mp_size` is `SIZ` (signed: its sign is
the sign of the integer), `_mp_d` is the limb array `PTR`, least significant
limb first; its length plays the role of `_mp_alloc`. -/
structure Mpz where
  _mp_size : Int
  _mp_d : List Nat
  deriving DecidableEq, Repr

/-- The ways a routine of `mpzmod.c` can stop without a result. -/
inductive Abort where
  /-- One of `assert(usize >= 0)`, `assert(vsize >= 0)`, `assert(psize >= 0)`. -/
  | sizeAssert
  /-- An `assert(bw_limb == 0)` after an `mpn_sub`. -/
  | borrowAssert
  /-- A call of `mpn_add` or `mpn_sub` with `s1n < s2n`, which GMP leaves undefined. -/
  | mpnPrecondition
  /-- A store of more limbs than the array of `w` holds after `MPZ_REALLOC`. -/
  | outOfBounds
  deriving DecidableEq, Repr

/-- The outcome of a routine: the integer left in `w`, or the reason it stopped. -/
inductive Outcome where
  | ok (w : Mpz)
  | abort (a : Abort)
  deriving DecidableEq, Repr

/-- The number denoted by a little-endian limb list in base `B`. -/
def mpn_val (B : Nat) : List Nat → Nat
  | [] => 0
  | x :: xs => x + B * mpn_val B xs

/-- The non-negative integer denoted by an `Mpz` with `SIZ >= 0`: the number
held in its low `SIZ` limbs. -/
def mpz_val (nb : Nat) (z : Mpz) : Nat :=
  mpn_val (limbBase nb) (z._mp_d.take z._mp_size.toNat)

/-- The invariants GMP keeps for a non-negative `mpz_t`: `SIZ >= 0`, at most
`ALLOC` limbs in use, every limb in use below the base, and the most
significant limb in use non-zero (`SIZ = 0` for zero). -/
def mpz_wf (nb : Nat) (z : Mpz) : Prop :=
  0 ≤ z._mp_size ∧ z._mp_size.toNat ≤ z._mp_d.length ∧
  (∀ x ∈ z._mp_d.take z._mp_size.toNat, x < limbBase nb) ∧
  (z._mp_size.toNat = 0 ∨ z._mp_d.getD (z._mp_size.toNat - 1) 0 ≠ 0)

instance (nb : Nat) (z : Mpz) : Decidable (mpz_wf nb z) := by
  unfold mpz_wf; infer_instance

/-! ## GMP `mpn` primitives -/

/-- Ripple-carry addition of `ys` (missing high limbs read as zero) to `xs`
with carry-in `c`: one sum limb per limb of `xs`, and the carry out. -/
def add_limbs (B : Nat) : List Nat → List Nat → Nat → List Nat × Nat
  | [], _, c => ([], c)
  | x :: xs, ys, c =>
    let s := x + ys.headD 0 + c
    let r := add_limbs B xs ys.tail (s / B)
    ((s % B) :: r.1, r.2)

/-- Ripple-borrow subtraction of `ys` (missing high limbs read as zero) from
`xs` with borrow-in `b`: one difference limb per limb of `xs`, and the borrow
out. -/
def sub_limbs (B : Nat) : List Nat → List Nat → Nat → List Nat × Nat
  | [], _, b => ([], b)
  | x :: xs, ys, b =>
    let t := ys.headD 0 + b
    let r := sub_limbs B xs ys.tail (if x < t then 1 else 0)
    (((x + B - t) % B) :: r.1, r.2)

/-- Limb-wise comparison of two equally long limb lists, most significant limb
first: `1`, `0` or `-1`. -/
def cmp_limbs : List Nat → List Nat → Int
  | x :: xs, y :: ys =>
    let r := cmp_limbs xs ys
    if r ≠ 0 then r else if y < x then 1 else if x < y then -1 else 0
  | _, _ => 0

/-- GMP `mpn_add (rp, s1p, s1n, s2p, s2n)`: the `s1n` limbs of the sum of
`{s1p, s1n}` and `{s2p, s2n}`, and the carry out; GMP requires `s1n >= s2n`. -/
def mpn_add (nb : Nat) (s1p : List Nat) (s1n : Nat) (s2p : List Nat) (s2n : Nat) :
    List Nat × Nat :=
  add_limbs (limbBase nb) (s1p.take s1n) (s2p.take s2n) 0

/-- GMP `mpn_sub (rp, s1p, s1n, s2p, s2n)`: the `s1n` limbs of the difference
`{s1p, s1n} - {s2p, s2n}`, and the borrow out; GMP requires `s1n >= s2n`. -/
def mpn_sub (nb : Nat) (s1p : List Nat) (s1n : Nat) (s2p : List Nat) (s2n : Nat) :
    List Nat × Nat :=
  sub_limbs (limbBase nb) (s1p.take s1n) (s2p.take s2n) 0

/-- GMP `mpn_cmp (s1p, s2p, n)`: positive, zero or negative as `{s1p, n}` is
greater than, equal to or less than `{s2p, n}`. -/
def mpn_cmp (s1p s2p : List Nat) (n : Nat) : Int :=
  cmp_limbs (s1p.take n) (s2p.take n)

/-- GMP `MPN_NORMALIZE (wp, wsize)`: lower `wsize` while it is positive and
`wp[wsize - 1]` is zero. -/
def MPN_NORMALIZE (wp : List Nat) : Nat → Nat
  | 0 => 0
  | n + 1 => if wp.getD n 0 ≠ 0 then n + 1 else MPN_NORMALIZE wp n

/-- GMP `MPZ_REALLOC (w, n)`: the limb array of `w`, grown to at least `n`
limbs; the content of the new limbs is unspecified and is read as zero. -/
def MPZ_REALLOC (w : Mpz) (n : Nat) : List Nat :=
  w._mp_d ++ List.replicate (n - w._mp_d.length) 0

/-- A store of the limbs `rp` at the start of the array `wp`. -/
def store (wp rp : List Nat) : List Nat :=
  rp ++ wp.drop rp.length

/-! ## `mpzmod.c` -/

/-- Lines 58 to 81 of `_mpn_modadd`, reached after the operand swap with
`SIZ (u) >= SIZ (v)`: add, then subtract `p` once if the sum is not below it. -/
def modadd_body (nb : Nat) (w u v p : Mpz) : Outcome :=
  let usize := u._mp_size.toNat
  let vsize := v._mp_size.toNat
  let psize := p._mp_size.toNat
  let wp0 := MPZ_REALLOC w (usize + 1)
  let up := u._mp_d
  let vp := v._mp_d
  let pp := p._mp_d
  let a := mpn_add nb up usize vp vsize
  let cy_limb := a.2
  -- mpn_add (wp, ...) ; wp[usize] = cy_limb
  let wp1 := (store wp0 a.1).set usize cy_limb
  let wsize := usize + cy_limb
  if psize < wsize ∨ (wsize = psize ∧ 0 ≤ mpn_cmp wp1 pp wsize) then
    let s := mpn_sub nb wp1 wsize pp psize
    if s.2 ≠ 0 then .abort .borrowAssert else
    let wp2 := store wp1 s.1
    .ok ⟨(MPN_NORMALIZE wp2 wsize : Nat), wp2⟩
  else
    .ok ⟨(wsize : Nat), wp1⟩

/-- The routine `_mpn_modadd (w, u, v, p)` of `mpzmod.c`: the three size
assertions, the swap of `u` and `v` when `usize < vsize`, then the sum. -/
def _mpn_modadd (nb : Nat) (w u v p : Mpz) : Outcome :=
  if u._mp_size < 0 ∨ v._mp_size < 0 ∨ p._mp_size < 0 then .abort .sizeAssert else
  if u._mp_size < v._mp_size then modadd_body nb w v u p else modadd_body nb w u v p

/-- The routine `_mpn_modsub (w, u, v, p)` of `mpzmod.c`. The array of `w` is
grown to `psize + 1` limbs only: a difference of more limbs than it holds would
be stored out of bounds, and a second subtraction with `psize < wsize` is
outside the contract of `mpn_sub`. -/
def _mpn_modsub (nb : Nat) (w u v p : Mpz) : Outcome :=
  if u._mp_size < 0 ∨ v._mp_size < 0 ∨ p._mp_size < 0 then .abort .sizeAssert else
  let usize := u._mp_size.toNat
  let vsize := v._mp_size.toNat
  let psize := p._mp_size.toNat
  let wp0 := MPZ_REALLOC w (psize + 1)
  let up := u._mp_d
  let vp := v._mp_d
  let pp := p._mp_d
  if vsize < usize ∨ (usize = vsize ∧ 0 ≤ mpn_cmp up vp usize) then
    -- simple subtraction
    if wp0.length < usize then .abort .outOfBounds else
    let s := mpn_sub nb up usize vp vsize
    if s.2 ≠ 0 then .abort .borrowAssert else
    let wp1 := store wp0 s.1
    .ok ⟨(MPN_NORMALIZE wp1 usize : Nat), wp1⟩
  else
    -- underflow -> (u-v)+p = p+(u-v) = p-(v-u)
    if wp0.length < vsize then .abort .outOfBounds else
    let s := mpn_sub nb vp vsize up usize
    if s.2 ≠ 0 then .abort .borrowAssert else
    let wp1 := store wp0 s.1
    let wsize := MPN_NORMALIZE wp1 vsize
    if psize < wsize then .abort .mpnPrecondition else
    let t := mpn_sub nb pp psize wp1 wsize
    if t.2 ≠ 0 then .abort .borrowAssert else
    let wp2 := store wp1 t.1
    .ok ⟨(MPN_NORMALIZE wp2 psize : Nat), wp2⟩

/-- The `mpz_t` whose limbs in use are exactly the list `l`: `SIZ` and `ALLOC`
are both its length. -/
def mpz_of_limbs (l : List Nat) : Mpz := ⟨(l.length : Nat), l⟩

/-- The value `_mpn_modadd` leaves in `w`: the sum, less `p` once when the sum
is not below `p`. -/
def modadd_val (u v p : Nat) : Nat := if u + v < p then u + v else u + v - p

/-- The value `_mpn_modsub` leaves in `w`: the difference, or `p` less the
reversed difference on the borrow path. -/
def modsub_val (u v p : Nat) : Nat := if v ≤ u then u - v else p - (v - u)

/-! ## The Montgomery curve coefficients of `ecurve.h`

Field elements (`mpFp_t`) of the prime field are elements of `ZMod p`; a
quotient `a / b` of the field is written `a * b⁻¹`. -/

/-- The struct `_mpECurve_mo_curve_coeff_t` of `ecurve.h`: the coefficients of
the Montgomery curve `B * y**2 = x**3 + A * x**2 + x` and the cached
coefficients of its internal short Weierstrass form. -/
structure _mpECurve_mo_curve_coeff_t (p : Nat) where
  B : ZMod p
  A : ZMod p
  ws_a : ZMod p
  ws_b : ZMod p
  Binv : ZMod p
  Adiv3 : ZMod p

/-- Modelled from the spec: the construction-time derivation of the cached
Montgomery coefficients (the body of `mpECurve_set_mpz_mo` is not among the
sources): `ws_a = (3 - A^2)/(3B^2)`, `ws_b = (2A^3 - 9A)/(27B^3)`,
`Binv = B^-1`, `Adiv3 = A/3`. -/
def mo_curve_coeff (p : Nat) (B A : ZMod p) : _mpECurve_mo_curve_coeff_t p :=
  { B := B
    A := A
    ws_a := (3 - A ^ 2) * (3 * B ^ 2)⁻¹
    ws_b := (2 * A ^ 3 - 9 * A) * (27 * B ^ 3)⁻¹
    Binv := B⁻¹
    Adiv3 := A * 3⁻¹ }

/-- The Montgomery equation `B * y**2 = x**3 + A * x**2 + x` at the affine
point `P = (x, y)`. -/
def mo_on_curve {p : Nat} (c : _mpECurve_mo_curve_coeff_t p) (P : ZMod p × ZMod p) : Prop :=
  c.B * P.2 ^ 2 = P.1 ^ 3 + c.A * P.1 ^ 2 + P.1

/-- The internal equation `v^2 = u^3 + ws_a * u + ws_b` at `Q = (u, v)`. -/
def ws_on_curve {p : Nat} (c : _mpECurve_mo_curve_coeff_t p) (Q : ZMod p × ZMod p) : Prop :=
  Q.2 ^ 2 = Q.1 ^ 3 + c.ws_a * Q.1 + c.ws_b

instance {p : Nat} (c : _mpECurve_mo_curve_coeff_t p) (P : ZMod p × ZMod p) :
    Decidable (mo_on_curve c P) := by
  unfold mo_on_curve; infer_instance

instance {p : Nat} (c : _mpECurve_mo_curve_coeff_t p) (Q : ZMod p × ZMod p) :
    Decidable (ws_on_curve c Q) := by
  unfold ws_on_curve; infer_instance

/-- The substitution as the comment of `_mpECurve_mo_curve_coeff_t` in
`ecurve.h` writes it ("transform is : x = Bu-A/3, y = Bv"), from internal form
to the Montgomery curve; the routine applying a map back is not among the
sources. -/
def ws_to_mo {p : Nat} (c : _mpECurve_mo_curve_coeff_t p) (Q : ZMod p × ZMod p) :
    ZMod p × ZMod p :=
  (c.B * Q.1 - c.Adiv3, c.B * Q.2)

/-- A Python object, as far as the argument parsers below tell objects apart. -/
inductive PyObject where
  | str (s : String)
  | long (n : Int)
  | other
  deriving DecidableEq, Repr

/-- The Python exception types the binding raises. -/
inductive PyExc where
  | TypeError
  | ValueError
  deriving DecidableEq, Repr

/-- The functions of the library called by `pycurve.c`. A status is the `int`
each `mpECurve_set_*` returns (`0` for success), paired with the curve state
it leaves; `_pylong_to_mpz_unsigned` gives the converted integer, or nothing
when its status is non-zero. -/
structure CurveLib (Curve : Type) where
  mpECurve_init : Curve
  mpECurve_set_named : Curve → String → Int × Curve
  mpECurve_set_mpz_ws : Curve → Nat → Nat → Nat → Nat → Nat → Nat → Nat → Nat → Int × Curve
  mpECurve_set_mpz_ed : Curve → Nat → Nat → Nat → Nat → Nat → Nat → Nat → Nat → Int × Curve
  mpECurve_set_mpz_mo : Curve → Nat → Nat → Nat → Nat → Nat → Nat → Nat → Nat → Int × Curve
  mpECurve_set_mpz_te : Curve → Nat → Nat → Nat → Nat → Nat → Nat → Nat → Nat → Int × Curve
  _pylong_to_mpz_unsigned : PyObject → Option Nat

/-- The object struct `ECurve`: the flag `ready` and the embedded curve `ec`,
which holds nothing before `mpECurve_init`. -/
structure ECurve (Curve : Type) where
  ready : Int
  ec : Option Curve
  deriving DecidableEq, Repr

/-- What a function returning `PyObject *` gives back: an object, `NULL` with
an exception set, or a write through a `NULL` pointer. -/
inductive PyResult (α : Type) where
  | ok (a : α)
  | error (exc : PyExc) (msg : String)
  | nullDeref
  deriving DecidableEq, Repr

/-- What `ECurve_init` gives back: its `int` return value, the exception it
set if any, and the object as it leaves it. -/
structure InitResult (Curve : Type) where
  ret : Int
  exc : Option (PyExc × String)
  self : ECurve Curve
  deriving DecidableEq, Repr

/-- CPython `PyArg_ParseTuple (args, "s", &name)`: succeeds on a tuple of one
`str` without an embedded null character. -/
def PyArg_ParseTuple_s (args : List PyObject) : Option String :=
  match args with
  | [PyObject.str s] => if Char.ofNat 0 ∈ s.data then none else some s
  | _ => none

/-- CPython `PyArg_ParseTuple (args, "OOOOOOOi", ...)`: succeeds on a tuple of
seven objects and an integer in the range of a C `int`. -/
def PyArg_ParseTuple_OOOOOOOi (args : List PyObject) :
    Option (PyObject × PyObject × PyObject × PyObject × PyObject × PyObject × PyObject × Int) :=
  match args with
  | [p, a, b, n, h, gx, gy, PyObject.long bits] =>
    if -2147483648 ≤ bits ∧ bits ≤ 2147483647 then some (p, a, b, n, h, gx, gy, bits) else none
  | _ => none

/-- The function `ECurve_new`: `tp_alloc` gives a zeroed object or `NULL`
(`allocated = false`); `self->ready = 0` is written before the `NULL` test. -/
def ECurve_new (Curve : Type) (allocated : Bool) : PyResult (ECurve Curve) :=
  if allocated then .ok ⟨0, none⟩ else .nullDeref

/-- The function `ECurve_init`, the constructor by name `ECurve(name)`. -/
def ECurve_init {Curve : Type} (lib : CurveLib Curve) (self : ECurve Curve)
    (args : List PyObject) : InitResult Curve :=
  match PyArg_ParseTuple_s args with
  | none => ⟨-1, some (.TypeError, "Error parsing ECurve_init arguments"), self⟩
  | some name =>
    let r := lib.mpECurve_set_named lib.mpECurve_init name
    let status := r.1
    if status ≠ 0 then
      ⟨-1, some (.ValueError, "Unable to find curve matching name"), { self with ec := some r.2 }⟩
    else
      -- you're ready!
      ⟨0, none, { ready := 1, ec := some r.2 }⟩

/-- The common body of the four class methods `ECurve_create_ws`, `_ed`, `_mo`
and `_te`, which differ in the setter `set_mpz` they call: parse the eight
arguments, convert the first seven, allocate the object, initialize its curve,
call the setter, and return the object. The `int` the setter returns is not
stored or tested; `bits` reaches it converted to `unsigned int`. -/
def ECurve_create {Curve : Type} (lib : CurveLib Curve)
    (set_mpz : Curve → Nat → Nat → Nat → Nat → Nat → Nat → Nat → Nat → Int × Curve)
    (allocated : Bool) (args : List PyObject) : PyResult (ECurve Curve) :=
  match PyArg_ParseTuple_OOOOOOOi args with
  | none => .error .TypeError "Error parsing ECurve_init arguments"
  | some (p, a, b, n, h, gx, gy, bits) =>
    match lib._pylong_to_mpz_unsigned p, lib._pylong_to_mpz_unsigned a,
      lib._pylong_to_mpz_unsigned b, lib._pylong_to_mpz_unsigned n,
      lib._pylong_to_mpz_unsigned h, lib._pylong_to_mpz_unsigned gx,
      lib._pylong_to_mpz_unsigned gy with
    | some pmpz, some ampz, some bmpz, some nmpz, some hmpz, some gxmpz, some gympz =>
      match ECurve_new Curve allocated with
      | .ok rop =>
        let r := set_mpz lib.mpECurve_init pmpz ampz bmpz nmpz hmpz gxmpz gympz
          (bits % 4294967296).toNat
        .ok { rop with ec := some r.2 }
      | .error exc msg => .error exc msg
      | .nullDeref => .nullDeref
    | _, _, _, _, _, _, _ => .error .ValueError "Error converting to (unsigned) GMP mpz_t"

/-- The class method `ECurve_create_ws`, exposed as `ECurve.ShortWeierstrass`. -/
def ECurve_create_ws {Curve : Type} (lib : CurveLib Curve) (allocated : Bool)
    (args : List PyObject) : PyResult (ECurve Curve) :=
  ECurve_create lib lib.mpECurve_set_mpz_ws allocated args

/-- The class method `ECurve_create_ed`, exposed as `ECurve.Edwards`. -/
def ECurve_create_ed {Curve : Type} (lib : CurveLib Curve) (allocated : Bool)
    (args : List PyObject) : PyResult (ECurve Curve) :=
  ECurve_create lib lib.mpECurve_set_mpz_ed allocated args

/-- The class method `ECurve_create_mo`, exposed as `ECurve.Montgomery`. -/
def ECurve_create_mo {Curve : Type} (lib : CurveLib Curve) (allocated : Bool)
    (args : List PyObject) : PyResult (ECurve Curve) :=
  ECurve_create lib lib.mpECurve_set_mpz_mo allocated args

/-- The class method `ECurve_create_te`, exposed as `ECurve.TwistedEdwards`. -/
def ECurve_create_te {Curve : Type} (lib : CurveLib Curve) (allocated : Bool)
    (args : List PyObject) : PyResult (ECurve Curve) :=
  ECurve_create lib lib.mpECurve_set_mpz_te allocated args

/-- The status the setter `set_mpz` reports on the arguments of a class-method
call, when they parse and convert. -/
def setter_status {Curve : Type} (lib : CurveLib Curve)
    (set_mpz : Curve → Nat → Nat → Nat → Nat → Nat → Nat → Nat → Nat → Int × Curve)
    (args : List PyObject) : Option Int :=
  match PyArg_ParseTuple_OOOOOOOi args with
  | none => none
  | some (p, a, b, n, h, gx, gy, bits) =>
    match lib._pylong_to_mpz_unsigned p, lib._pylong_to_mpz_unsigned a,
      lib._pylong_to_mpz_unsigned b, lib._pylong_to_mpz_unsigned n,
      lib._pylong_to_mpz_unsigned h, lib._pylong_to_mpz_unsigned gx,
      lib._pylong_to_mpz_unsigned gy with
    | some pmpz, some ampz, some bmpz, some nmpz, some hmpz, some gxmpz, some gympz =>
      some (set_mpz lib.mpECurve_init pmpz ampz bmpz nmpz hmpz gxmpz gympz
        (bits % 4294967296).toNat).1
    | _, _, _, _, _, _, _ => none

/-- A stand-in for the library, for evaluating the binding on concrete calls:
a curve state is the list of the numbers last set; every setter reports `-1`
when `p < 2` or `n = 0` or `h = 0` and `0` otherwise; the registry knows the
names `secp256k1` and `curve25519`; a Python `int` converts when it is
non-negative. -/
def stubLib : CurveLib (List Nat) :=
  let set := fun (_ : List Nat) (p a b n h gx gy bits : Nat) =>
    if p < 2 ∨ n = 0 ∨ h = 0 then ((-1 : Int), ([] : List Nat))
    else ((0 : Int), [p, a, b, n, h, gx, gy, bits])
  { mpECurve_init := []
    mpECurve_set_named := fun _ name =>
      if name = "secp256k1" then (0, [1]) else if name = "curve25519" then (0, [2]) else (-1, [])
    mpECurve_set_mpz_ws := set
    mpECurve_set_mpz_ed := set
    mpECurve_set_mpz_mo := set
    mpECurve_set_mpz_te := set
    _pylong_to_mpz_unsigned := fun o =>
      match o with
      | PyObject.long n => if 0 ≤ n then some n.toNat else none
      | _ => none }

/-- The arguments of a class-method call with invalid curve parameters: the
modulus `p = 4` is not prime and the order `n = 0` is not positive. -/
def invalidCurveArgs : List PyObject :=
  [.long 4, .long 1, .long 1, .long 0, .long 1, .long 0, .long 0, .long 3]

/-- The arguments of a class-method call with the parameters of the curve
`y^2 = x^3 + x + 1` over `GF(23)`: `p = 23`, coefficients `1`, `1`, order
`n = 28`, cofactor `h = 1`, generator `(0, 1)`, `bits = 5`. -/
def validCurveArgs : List PyObject :=
  [.long 23, .long 1, .long 1, .long 28, .long 1, .long 0, .long 1, .long 5]

/-- The function `ECurve_dealloc`, as far as the curve goes: whether
`mpECurve_clear (self->ec)` is called, which is when `self->ready` is non-zero. -/
def ECurve_dealloc {Curve : Type} (self : ECurve Curve) : Bool :=
  if self.ready ≠ 0 then true else false

/-- The second operand of a rich comparison: an `ECurve` object, or an object
of another type. -/
inductive PyOperand (Curve : Type) where
  | ecurve (e : ECurve Curve)
  | object (o : PyObject)
  deriving DecidableEq, Repr

/-- CPython comparison opcode `Py_LT`. -/
def Py_LT : Int := 0

/-- CPython comparison opcode `Py_LE`. -/
def Py_LE : Int := 1

/-- CPython comparison opcode `Py_EQ`. -/
def Py_EQ : Int := 2

/-- CPython comparison opcode `Py_NE`. -/
def Py_NE : Int := 3

/-- CPython comparison opcode `Py_GT`. -/
def Py_GT : Int := 4

/-- CPython comparison opcode `Py_GE`. -/
def Py_GE : Int := 5

/-- The function `ECurve_richcompare (a, b, op)`: `Py_True` or `Py_False`, or
`NULL` with `TypeError` set. The library function `mpECurve_cmp`, whose body is
not among the sources, is a parameter; it receives the two embedded curves. -/
def ECurve_richcompare {Curve : Type} (mpECurve_cmp : Option Curve → Option Curve → Int)
    (a : ECurve Curve) (b : PyOperand Curve) (op : Int) : PyResult Bool :=
  match b with
  | .object _ =>
    .error .TypeError "ECurve Comparison (=, !=) only supported for ECurve type"
  | .ecurve b =>
    if op = Py_EQ then
      let result : Int := if mpECurve_cmp a.ec b.ec = 0 then 1 else 0
      if result ≠ 0 then .ok true else .ok false
    else if op = Py_NE then
      let result : Int := if mpECurve_cmp a.ec b.ec ≠ 0 then 1 else 0
      if result ≠ 0 then .ok true else .ok false
    else
      .error .TypeError "Relative comparison (<, <=, >=, >) not valid for ECurve type"

/-- What `ECurve_list_curve_names` gives back: the Python list, `NULL` after a
failed `PyList_Append`, or a read past the end of an array that holds no
`NULL`. -/
inductive NamesResult where
  | list (clist : List PyObject)
  | null
  | outOfBounds
  deriving DecidableEq, Repr

/-- The loop of `ECurve_list_curve_names` from index `i` on: `rest` is the array
from `list[i]` on (`none` is `NULL`), `clist` the Python list built so far;
`append_fails i` tells whether the `PyList_Append` of entry `i` reports a
non-zero status. -/
def curve_names_loop (append_fails : Nat → Bool) :
    List (Option String) → Nat → List PyObject → NamesResult
  | [], _, _ => .outOfBounds
  | none :: _, _, clist => .list clist
  | some name :: rest, i, clist =>
    if append_fails i then .null
    else curve_names_loop append_fails rest (i + 1) (clist ++ [PyObject.str name])

/-- The function `ECurve_list_curve_names`: `list` is the array returned by
`_mpECurve_list_standard_curves`, whose body is not among the sources. -/
def ECurve_list_curve_names (list : List (Option String)) (append_fails : Nat → Bool) :
    NamesResult :=
  curve_names_loop append_fails list 0 []

/-- The entries of a name array before its first `NULL`. -/
def names_before_null : List (Option String) → List String
  | some name :: rest => name :: names_before_null rest
  | _ => []

/-- Lines 60 to 74 of `_mpn_modadd`, for operands already ordered by size: the
array of `w` and the size `wsize = usize + cy_limb` after `mpn_add` and the
store of the carry limb, before the comparison with `p`. -/
def modadd_raw_body (nb : Nat) (w u v : Mpz) : List Nat × Nat :=
  let usize := u._mp_size.toNat
  let vsize := v._mp_size.toNat
  let a := mpn_add nb u._mp_d usize v._mp_d vsize
  ((store (MPZ_REALLOC w (usize + 1)) a.1).set usize a.2, usize + a.2)

/-- The raw sum `_mpn_modadd` holds before its comparison with `p`: the
operands are swapped when `usize < vsize`, as in the routine. -/
def modadd_raw (nb : Nat) (w u v : Mpz) : List Nat × Nat :=
  if u._mp_size < v._mp_size then modadd_raw_body nb w v u else modadd_raw_body nb w u v

/-- Lines 116 to 120 of `_mpn_modsub`, on the borrow path: the array of `w` and
the size `wsize` after the reversed subtraction `v - u` and `MPN_NORMALIZE`,
before the subtraction from `p`. -/
def modsub_diff (nb : Nat) (w u v p : Mpz) : List Nat × Nat :=
  let wp1 := store (MPZ_REALLOC w (p._mp_size.toNat + 1))
    (mpn_sub nb v._mp_d v._mp_size.toNat u._mp_d u._mp_size.toNat).1
  (wp1, MPN_NORMALIZE wp1 v._mp_size.toNat)

/-- An `mpz_t` of value zero with no limb allocated, as a result operand. -/
def W0 : Mpz := mpz_of_limbs []

/-- The two-limb number `2^128 - 1` with 64-bit limbs. -/
def M128 : Mpz := mpz_of_limbs [18446744073709551615, 18446744073709551615]

/-- The one-limb number `5`. -/
def N5 : Mpz := mpz_of_limbs [5]

/-- The two-limb modulus `2^65 + 7` with 64-bit limbs. -/
def P65 : Mpz := mpz_of_limbs [7, 2]

/-- The two-limb number `2^65 + 6`, one below the modulus `P65`. -/
def P65m1 : Mpz := mpz_of_limbs [6, 2]

/-- The two-limb number `2^64 + 5` with 64-bit limbs. -/
def A64 : Mpz := mpz_of_limbs [5, 1]

/-! ## Limb-level lemmas -/

theorem mpn_val_append (B : Nat) (l m : List Nat) :
    mpn_val B (l ++ m) = mpn_val B l + B ^ l.length * mpn_val B m := by
  induction l with
  | nil => simp [mpn_val]
  | cons x xs ih =>
    show x + B * mpn_val B (xs ++ m) = x + B * mpn_val B xs + B ^ (xs.length + 1) * mpn_val B m
    rw [ih, pow_succ]; ring

theorem mpn_val_lt (B : Nat) (l : List Nat) (h : ∀ x ∈ l, x < B) :
    mpn_val B l < B ^ l.length := by
  induction l with
  | nil => simp [mpn_val]
  | cons x xs ih =>
    have hx : x < B := h x (List.mem_cons_self _ _)
    have hxs := ih (fun y hy => h y (List.mem_cons_of_mem _ hy))
    simp only [mpn_val, List.length_cons, pow_succ]
    nlinarith

theorem add_limbs_length (B : Nat) (xs ys : List Nat) (c : Nat) :
    (add_limbs B xs ys c).1.length = xs.length := by
  induction xs generalizing ys c with
  | nil => simp [add_limbs]
  | cons x xs ih => simp [add_limbs, ih]

theorem add_limbs_lt (B : Nat) (hB : 0 < B) (xs ys : List Nat) (c : Nat) :
    ∀ z ∈ (add_limbs B xs ys c).1, z < B := by
  induction xs generalizing ys c with
  | nil => simp [add_limbs]
  | cons x xs ih =>
    intro z hz
    simp only [add_limbs, List.mem_cons] at hz
    rcases hz with rfl | hz
    · exact Nat.mod_lt _ hB
    · exact ih _ _ z hz

theorem add_limbs_val (B : Nat) (xs ys : List Nat) (c : Nat) (hlen : ys.length ≤ xs.length) :
    mpn_val B (add_limbs B xs ys c).1 + B ^ xs.length * (add_limbs B xs ys c).2
      = mpn_val B xs + mpn_val B ys + c := by
  induction xs generalizing ys c with
  | nil =>
    have : ys = [] := List.length_eq_zero.mp (Nat.le_zero.mp hlen)
    subst this; simp [add_limbs, mpn_val]
  | cons x xs ih =>
    cases ys with
    | nil =>
      have h := ih [] ((x + c) / B) (Nat.zero_le _)
      simp only [add_limbs, List.headD_nil, List.tail_nil, mpn_val, List.length_cons, pow_succ,
        add_zero] at h ⊢
      have hd := Nat.div_add_mod (x + c) B
      nlinarith
    | cons y ys =>
      have h := ih ys ((x + y + c) / B) (Nat.le_of_succ_le_succ hlen)
      simp only [add_limbs, List.headD_cons, List.tail_cons, mpn_val, List.length_cons,
        pow_succ] at h ⊢
      have hd := Nat.div_add_mod (x + y + c) B
      nlinarith

theorem sub_limb_eq (B x t : Nat) (hx : x < B) (ht : t ≤ B) :
    (x + B - t) % B + t = x + B * (if x < t then 1 else 0) := by
  by_cases h : x < t
  · rw [if_pos h, Nat.mod_eq_of_lt (by omega)]; omega
  · rw [if_neg h]
    have e : x + B - t = (x - t) + B := by omega
    rw [e, Nat.add_mod_right, Nat.mod_eq_of_lt (by omega)]; omega

theorem sub_limbs_length (B : Nat) (xs ys : List Nat) (b : Nat) :
    (sub_limbs B xs ys b).1.length = xs.length := by
  induction xs generalizing ys b with
  | nil => simp [sub_limbs]
  | cons x xs ih => simp [sub_limbs, ih]

theorem sub_limbs_lt (B : Nat) (hB : 0 < B) (xs ys : List Nat) (b : Nat) :
    ∀ z ∈ (sub_limbs B xs ys b).1, z < B := by
  induction xs generalizing ys b with
  | nil => simp [sub_limbs]
  | cons x xs ih =>
    intro z hz
    simp only [sub_limbs, List.mem_cons] at hz
    rcases hz with rfl | hz
    · exact Nat.mod_lt _ hB
    · exact ih _ _ z hz

theorem sub_limbs_borrow_le (B : Nat) (xs ys : List Nat) (b : Nat) (hb : b ≤ 1) :
    (sub_limbs B xs ys b).2 ≤ 1 := by
  induction xs generalizing ys b with
  | nil => simpa [sub_limbs] using hb
  | cons x xs ih =>
    simp only [sub_limbs]
    apply ih
    split <;> omega

theorem sub_limbs_val (B : Nat) (xs ys : List Nat) (b : Nat) (hb : b ≤ 1)
    (hxs : ∀ x ∈ xs, x < B) (hys : ∀ y ∈ ys, y < B) (hlen : ys.length ≤ xs.length) :
    mpn_val B (sub_limbs B xs ys b).1 + mpn_val B ys + b
      = mpn_val B xs + B ^ xs.length * (sub_limbs B xs ys b).2 := by
  induction xs generalizing ys b with
  | nil =>
    have : ys = [] := List.length_eq_zero.mp (Nat.le_zero.mp hlen)
    subst this; simp [sub_limbs, mpn_val]
  | cons x xs ih =>
    have hx : x < B := hxs x (List.mem_cons_self _ _)
    have hxs1 : ∀ z ∈ xs, z < B := fun z hz => hxs z (List.mem_cons_of_mem _ hz)
    cases ys with
    | nil =>
      have hb1 : (if x < 0 + b then 1 else 0) ≤ 1 := by split <;> omega
      have h := ih [] _ hb1 hxs1 (by simp) (Nat.zero_le _)
      have e := sub_limb_eq B x (0 + b) hx (by omega)
      simp only [sub_limbs, List.headD_nil, List.tail_nil, mpn_val, List.length_cons, pow_succ,
        add_zero, zero_add] at h e ⊢
      have hm := congrArg (fun t => B * t) h
      simp only at hm
      linarith
    | cons y ys =>
      have hy : y < B := hys y (List.mem_cons_self _ _)
      have hys1 : ∀ z ∈ ys, z < B := fun z hz => hys z (List.mem_cons_of_mem _ hz)
      have hb1 : (if x < y + b then 1 else 0) ≤ 1 := by split <;> omega
      have h := ih ys _ hb1 hxs1 hys1 (Nat.le_of_succ_le_succ hlen)
      have e := sub_limb_eq B x (y + b) hx (by omega)
      simp only [sub_limbs, List.headD_cons, List.tail_cons, mpn_val, List.length_cons,
        pow_succ] at h ⊢
      have hm := congrArg (fun t => B * t) h
      simp only at hm
      linarith

theorem cmp_limbs_spec (B : Nat) (xs ys : List Nat) (hlen : xs.length = ys.length)
    (hxs : ∀ x ∈ xs, x < B) (hys : ∀ y ∈ ys, y < B) :
    (cmp_limbs xs ys = 1 ∧ mpn_val B ys < mpn_val B xs) ∨
    (cmp_limbs xs ys = 0 ∧ mpn_val B xs = mpn_val B ys) ∨
    (cmp_limbs xs ys = -1 ∧ mpn_val B xs < mpn_val B ys) := by
  induction xs generalizing ys with
  | nil =>
    have : ys = [] := List.length_eq_zero.mp hlen.symm
    subst this; simp [cmp_limbs, mpn_val]
  | cons x xs ih =>
    cases ys with
    | nil => simp at hlen
    | cons y ys =>
      have hx : x < B := hxs x (List.mem_cons_self _ _)
      have hy : y < B := hys y (List.mem_cons_self _ _)
      have h := ih ys (by simpa using hlen) (fun z hz => hxs z (List.mem_cons_of_mem _ hz))
        (fun z hz => hys z (List.mem_cons_of_mem _ hz))
      simp only [cmp_limbs, mpn_val]
      rcases h with ⟨h1, h2⟩ | ⟨h1, h2⟩ | ⟨h1, h2⟩
      · left; rw [h1]; refine ⟨by simp, ?_⟩; nlinarith
      · rw [h1, h2]; simp only [ne_eq, not_true_eq_false, if_false]
        rcases Nat.lt_trichotomy x y with h | h | h
        · right; right; rw [if_neg (by omega), if_pos h]; exact ⟨rfl, by omega⟩
        · right; left; rw [if_neg (by omega), if_neg (by omega)]; exact ⟨rfl, by omega⟩
        · left; rw [if_pos h]; exact ⟨rfl, by omega⟩
      · right; right; rw [h1]; refine ⟨by simp, ?_⟩; nlinarith

theorem cmp_limbs_nonneg_iff (B : Nat) (xs ys : List Nat) (hlen : xs.length = ys.length)
    (hxs : ∀ x ∈ xs, x < B) (hys : ∀ y ∈ ys, y < B) :
    0 ≤ cmp_limbs xs ys ↔ mpn_val B ys ≤ mpn_val B xs := by
  rcases cmp_limbs_spec B xs ys hlen hxs hys with ⟨h1, h2⟩ | ⟨h1, h2⟩ | ⟨h1, h2⟩ <;>
    rw [h1] <;> constructor <;> intro h <;> omega

theorem mpn_val_take_succ (B : Nat) (l : List Nat) (n : Nat) :
    mpn_val B (l.take (n + 1)) = mpn_val B (l.take n) + B ^ n * l.getD n 0 := by
  induction l generalizing n with
  | nil => simp [mpn_val]
  | cons x xs ih =>
    cases n with
    | zero => simp [mpn_val]
    | succ n =>
      simp only [List.take_succ_cons, mpn_val, ih n, List.getD_cons_succ, pow_succ]
      ring

theorem MPN_NORMALIZE_le (wp : List Nat) (n : Nat) : MPN_NORMALIZE wp n ≤ n := by
  induction n with
  | zero => simp [MPN_NORMALIZE]
  | succ n ih =>
    simp only [MPN_NORMALIZE]
    split <;> omega

theorem MPN_NORMALIZE_val (B : Nat) (wp : List Nat) (n : Nat) :
    mpn_val B (wp.take (MPN_NORMALIZE wp n)) = mpn_val B (wp.take n) := by
  induction n with
  | zero => simp [MPN_NORMALIZE]
  | succ n ih =>
    simp only [MPN_NORMALIZE]
    split
    · rfl
    · rename_i h
      have h0 : wp.getD n 0 = 0 := by simpa using h
      rw [ih, mpn_val_take_succ, h0]; simp

theorem MPN_NORMALIZE_top (wp : List Nat) (n : Nat) :
    MPN_NORMALIZE wp n = 0 ∨ wp.getD (MPN_NORMALIZE wp n - 1) 0 ≠ 0 := by
  induction n with
  | zero => simp [MPN_NORMALIZE]
  | succ n ih =>
    simp only [MPN_NORMALIZE]
    split
    · rename_i h; right; simpa using h
    · exact ih

/-! ## Normalized limb arrays -/

theorem limbBase_pos (nb : Nat) : 0 < limbBase nb := Nat.pos_pow_of_pos nb (by decide)

theorem mem_take_of_le {l : List Nat} {m n : Nat} (h : m ≤ n) {x : Nat}
    (hx : x ∈ l.take m) : x ∈ l.take n := by
  have e : l.take m = (l.take n).take m := by rw [List.take_take, Nat.min_eq_left h]
  rw [e] at hx
  exact List.mem_of_mem_take hx

/-- With every limb in use below the base, a non-zero top limb bounds the value from below. -/
theorem top_ne_zero_iff (B : Nat) (hB : 0 < B) (wp : List Nat) (n : Nat)
    (hlt : ∀ x ∈ wp.take (n + 1), x < B) :
    wp.getD n 0 ≠ 0 ↔ B ^ n ≤ mpn_val B (wp.take (n + 1)) := by
  have hval := mpn_val_take_succ B wp n
  have hlow : mpn_val B (wp.take n) < B ^ (wp.take n).length :=
    mpn_val_lt B _ (fun x hx => hlt x (mem_take_of_le (Nat.le_succ n) hx))
  have hlen : (wp.take n).length ≤ n := by simp [List.length_take]
  have hpow : B ^ (wp.take n).length ≤ B ^ n := Nat.pow_le_pow_right hB hlen
  constructor
  · intro h
    have h1 : 1 ≤ wp.getD n 0 := Nat.one_le_iff_ne_zero.mpr h
    rw [hval]
    calc B ^ n = B ^ n * 1 := (mul_one _).symm
      _ ≤ B ^ n * wp.getD n 0 := Nat.mul_le_mul_left _ h1
      _ ≤ _ := Nat.le_add_left _ _
  · intro h h0
    rw [hval, h0] at h
    simp at h
    omega

theorem mpz_wf_size (nb : Nat) (z : Mpz) (h : mpz_wf nb z) :
    z._mp_size = (z._mp_size.toNat : Int) := (Int.toNat_of_nonneg h.1).symm

theorem mpz_wf_take_length (nb : Nat) (z : Mpz) (h : mpz_wf nb z) :
    (z._mp_d.take z._mp_size.toNat).length = z._mp_size.toNat := by
  rw [List.length_take]; exact Nat.min_eq_left h.2.1

theorem mpz_val_lt (nb : Nat) (z : Mpz) (h : mpz_wf nb z) :
    mpz_val nb z < limbBase nb ^ z._mp_size.toNat := by
  have := mpn_val_lt (limbBase nb) _ h.2.2.1
  rwa [mpz_wf_take_length nb z h] at this

theorem mpz_val_ge (nb : Nat) (z : Mpz) (h : mpz_wf nb z) :
    z._mp_size.toNat = 0 ∨ limbBase nb ^ (z._mp_size.toNat - 1) ≤ mpz_val nb z := by
  by_cases hn : z._mp_size.toNat = 0
  · left; exact hn
  · right
    have h1 : z._mp_d.getD (z._mp_size.toNat - 1) 0 ≠ 0 := h.2.2.2.resolve_left hn
    obtain ⟨k, hk⟩ : ∃ k, z._mp_size.toNat = k + 1 := ⟨z._mp_size.toNat - 1, by omega⟩
    unfold mpz_val
    rw [hk] at h1 ⊢
    simp only [Nat.add_sub_cancel] at h1 ⊢
    exact (top_ne_zero_iff _ (limbBase_pos nb) _ k (by rw [← hk]; exact h.2.2.1)).mp h1

/-- A size and limb array with the in-use limbs below the base and a value of
full length form a well-formed integer with that value. -/
theorem mpz_wf_mk (nb : Nat) (wp : List Nat) (n : Nat) (hlen : n ≤ wp.length)
    (hlt : ∀ x ∈ wp.take n, x < limbBase nb)
    (hge : n = 0 ∨ limbBase nb ^ (n - 1) ≤ mpn_val (limbBase nb) (wp.take n)) :
    mpz_wf nb ⟨(n : Nat), wp⟩ := by
  refine ⟨Int.ofNat_nonneg n, by simpa using hlen, by simpa using hlt, ?_⟩
  simp only [Int.toNat_ofNat]
  by_cases hn : n = 0
  · left; exact hn
  · right
    obtain ⟨k, hk⟩ : ∃ k, n = k + 1 := ⟨n - 1, by omega⟩
    subst hk
    simp only [Nat.add_sub_cancel] at hge ⊢
    exact (top_ne_zero_iff _ (limbBase_pos nb) _ k hlt).mpr (hge.resolve_left hn)

/-- The result size chosen by `MPN_NORMALIZE` gives a well-formed integer of
the same value. -/
theorem mpz_wf_normalize (nb : Nat) (wp : List Nat) (n : Nat) (hlen : n ≤ wp.length)
    (hlt : ∀ x ∈ wp.take n, x < limbBase nb) :
    mpz_wf nb ⟨(MPN_NORMALIZE wp n : Nat), wp⟩ ∧
    mpz_val nb ⟨(MPN_NORMALIZE wp n : Nat), wp⟩ = mpn_val (limbBase nb) (wp.take n) := by
  have hle := MPN_NORMALIZE_le wp n
  refine ⟨⟨Int.ofNat_nonneg _, by simp only [Int.toNat_ofNat]; omega, ?_, ?_⟩, ?_⟩
  · simp only [Int.toNat_ofNat]
    exact fun x hx => hlt x (mem_take_of_le hle hx)
  · simp only [Int.toNat_ofNat]
    exact MPN_NORMALIZE_top wp n
  · simp only [mpz_val, Int.toNat_ofNat]
    exact MPN_NORMALIZE_val _ wp n

/-- A well-formed integer with more limbs is the greater one. -/
theorem mpz_val_lt_of_size_lt (nb : Nat) (a b : Mpz) (ha : mpz_wf nb a) (hb : mpz_wf nb b)
    (h : b._mp_size.toNat < a._mp_size.toNat) : mpz_val nb b < mpz_val nb a := by
  have h1 := mpz_val_lt nb b hb
  have h2 := (mpz_val_ge nb a ha).resolve_left (by omega)
  have h3 : limbBase nb ^ b._mp_size.toNat ≤ limbBase nb ^ (a._mp_size.toNat - 1) :=
    Nat.pow_le_pow_right (limbBase_pos nb) (by omega)
  omega

/-! ## Stores into the result array -/

theorem store_take (wp rp : List Nat) : (store wp rp).take rp.length = rp := by
  simp [store]

theorem store_length (wp rp : List Nat) (h : rp.length ≤ wp.length) :
    (store wp rp).length = wp.length := by
  simp only [store, List.length_append, List.length_drop]; omega

theorem store_set (wp rp : List Nat) (c : Nat) (h : rp.length < wp.length) :
    (store wp rp).set rp.length c = rp ++ c :: wp.drop (rp.length + 1) := by
  unfold store
  rw [List.set_append_right _ _ (le_refl _)]
  simp only [Nat.sub_self]
  rw [List.drop_eq_getElem_cons h]
  rfl

theorem MPZ_REALLOC_length (w : Mpz) (n : Nat) : n ≤ (MPZ_REALLOC w n).length := by
  simp only [MPZ_REALLOC, List.length_append, List.length_replicate]; omega

/-- The sum limbs followed by the carry limb, read with `usize + cy_limb` limbs,
hold the sum of the operands. -/
theorem add_limbs_repr (B : Nat) (hB : 0 < B) (U V t : List Nat) (hlen : V.length ≤ U.length)
    (hU : ∀ x ∈ U, x < B) (hV : ∀ x ∈ V, x < B) :
    (add_limbs B U V 0).2 ≤ 1 ∧
    (∀ x ∈ ((add_limbs B U V 0).1 ++ (add_limbs B U V 0).2 :: t).take
        (U.length + (add_limbs B U V 0).2), x < B) ∧
    mpn_val B (((add_limbs B U V 0).1 ++ (add_limbs B U V 0).2 :: t).take
        (U.length + (add_limbs B U V 0).2)) = mpn_val B U + mpn_val B V := by
  have hval := add_limbs_val B U V 0 hlen
  have hl := add_limbs_length B U V 0
  have hlt := add_limbs_lt B hB U V 0
  have hUv := mpn_val_lt B U hU
  have hVv := mpn_val_lt B V hV
  have hVp : B ^ V.length ≤ B ^ U.length := Nat.pow_le_pow_right hB hlen
  have hpos : 0 < B ^ U.length := Nat.pos_pow_of_pos _ hB
  generalize (add_limbs B U V 0).1 = r at hval hl hlt ⊢
  generalize (add_limbs B U V 0).2 = c at hval ⊢
  have hc : c ≤ 1 := by
    by_contra hc
    have : 2 ≤ c := by omega
    have : B ^ U.length * 2 ≤ B ^ U.length * c := Nat.mul_le_mul_left _ this
    omega
  refine ⟨hc, ?_⟩
  rcases Nat.le_one_iff_eq_zero_or_eq_one.mp hc with rfl | rfl
  · have e : (r ++ 0 :: t).take (U.length + 0) = r := by
      rw [Nat.add_zero, ← hl]; simp
    rw [e]
    exact ⟨hlt, by simpa using hval⟩
  · have e : (r ++ 1 :: t).take (U.length + 1) = r ++ [1] := by
      rw [← hl, List.take_append]; simp
    rw [e]
    have hB1 : 1 < B := by
      by_contra h1
      have hB' : B = 1 := by omega
      subst hB'
      simp at hUv hVv hval
      omega
    refine ⟨?_, ?_⟩
    · intro x hx
      rcases List.mem_append.mp hx with h | h
      · exact hlt x h
      · simp at h; omega
    · rw [mpn_val_append, hl]
      simp only [mpn_val, mul_zero, add_zero]
      simpa using hval

/-! ## `_mpn_modadd` -/

/-- The size test followed by `mpn_cmp` decides the order of two normalized numbers. -/
theorem size_cmp_iff (nb : Nat) (wp : List Nat) (wsize : Nat) (p : Mpz) (hp : mpz_wf nb p)
    (hlen : wsize ≤ wp.length) (hlt : ∀ x ∈ wp.take wsize, x < limbBase nb)
    (hge : wsize = 0 ∨ limbBase nb ^ (wsize - 1) ≤ mpn_val (limbBase nb) (wp.take wsize)) :
    (p._mp_size.toNat < wsize ∨ (wsize = p._mp_size.toNat ∧ 0 ≤ mpn_cmp wp p._mp_d wsize)) ↔
      mpz_val nb p ≤ mpn_val (limbBase nb) (wp.take wsize) := by
  have hB := limbBase_pos nb
  have hWl : (wp.take wsize).length = wsize := by rw [List.length_take]; omega
  have hWub := mpn_val_lt _ _ hlt
  rw [hWl] at hWub
  have hPub := mpz_val_lt nb p hp
  have hPlb := mpz_val_ge nb p hp
  have hcmp : wsize = p._mp_size.toNat →
      (0 ≤ mpn_cmp wp p._mp_d wsize ↔ mpz_val nb p ≤ mpn_val (limbBase nb) (wp.take wsize)) := by
    intro he
    unfold mpn_cmp mpz_val
    rw [he]
    apply cmp_limbs_nonneg_iff
    · rw [mpz_wf_take_length nb p hp, ← he, hWl]
    · rw [← he]; exact hlt
    · exact hp.2.2.1
  constructor
  · rintro (h | ⟨he, hc⟩)
    · have h3 : limbBase nb ^ p._mp_size.toNat ≤ limbBase nb ^ (wsize - 1) :=
        Nat.pow_le_pow_right hB (by omega)
      have := hge.resolve_left (by omega)
      omega
    · exact (hcmp he).mp hc
  · intro h
    rcases Nat.lt_trichotomy p._mp_size.toNat wsize with h1 | h1 | h1
    · left; exact h1
    · right; exact ⟨h1.symm, (hcmp h1.symm).mpr h⟩
    · exfalso
      have h3 : limbBase nb ^ wsize ≤ limbBase nb ^ (p._mp_size.toNat - 1) :=
        Nat.pow_le_pow_right hB (by omega)
      have := hPlb.resolve_left (by omega)
      omega

/-- A subtraction `mpn_sub` of a number that is not greater leaves no borrow
and the difference. -/
theorem mpn_sub_spec (nb : Nat) (xp : List Nat) (xn : Nat) (yp : List Nat) (yn : Nat)
    (hxl : xn ≤ xp.length) (hyl : yn ≤ yp.length) (hn : yn ≤ xn)
    (hx : ∀ x ∈ xp.take xn, x < limbBase nb) (hy : ∀ y ∈ yp.take yn, y < limbBase nb)
    (hle : mpn_val (limbBase nb) (yp.take yn) ≤ mpn_val (limbBase nb) (xp.take xn)) :
    (mpn_sub nb xp xn yp yn).2 = 0 ∧ (mpn_sub nb xp xn yp yn).1.length = xn ∧
    (∀ z ∈ (mpn_sub nb xp xn yp yn).1, z < limbBase nb) ∧
    mpn_val (limbBase nb) (mpn_sub nb xp xn yp yn).1 =
      mpn_val (limbBase nb) (xp.take xn) - mpn_val (limbBase nb) (yp.take yn) := by
  have hB := limbBase_pos nb
  have hXl : (xp.take xn).length = xn := by rw [List.length_take]; omega
  have hYl : (yp.take yn).length = yn := by rw [List.length_take]; omega
  unfold mpn_sub
  have hval := sub_limbs_val (limbBase nb) (xp.take xn) (yp.take yn) 0 (by omega) hx hy
    (by rw [hXl, hYl]; exact hn)
  have hbw := sub_limbs_borrow_le (limbBase nb) (xp.take xn) (yp.take yn) 0 (by omega)
  have hl := sub_limbs_length (limbBase nb) (xp.take xn) (yp.take yn) 0
  have hlt := sub_limbs_lt (limbBase nb) hB (xp.take xn) (yp.take yn) 0
  have hub := mpn_val_lt _ _ hlt
  rw [hl] at hub
  generalize (sub_limbs (limbBase nb) (xp.take xn) (yp.take yn) 0).1 = r at *
  generalize (sub_limbs (limbBase nb) (xp.take xn) (yp.take yn) 0).2 = c at *
  have hc : c = 0 := by
    rcases Nat.le_one_iff_eq_zero_or_eq_one.mp hbw with h | h
    · exact h
    · subst h; simp only [mul_one, add_zero] at hval; omega
  subst hc
  simp only [mul_zero, add_zero] at hval
  exact ⟨rfl, by rw [hl, hXl], hlt, by omega⟩

/-- The conditional subtraction of `p` at the end of `_mpn_modadd`, for a sum
held normalized in `wsize` limbs of `wp`. -/
theorem modadd_tail (nb : Nat) (wp : List Nat) (wsize : Nat) (p : Mpz) (hp : mpz_wf nb p)
    (hlen : wsize ≤ wp.length) (hlt : ∀ x ∈ wp.take wsize, x < limbBase nb)
    (hge : wsize = 0 ∨ limbBase nb ^ (wsize - 1) ≤ mpn_val (limbBase nb) (wp.take wsize)) :
    ∃ r, (if p._mp_size.toNat < wsize ∨
            (wsize = p._mp_size.toNat ∧ 0 ≤ mpn_cmp wp p._mp_d wsize) then
          (if (mpn_sub nb wp wsize p._mp_d p._mp_size.toNat).2 ≠ 0 then
            Outcome.abort Abort.borrowAssert
          else
            Outcome.ok ⟨(MPN_NORMALIZE (store wp (mpn_sub nb wp wsize p._mp_d p._mp_size.toNat).1)
              wsize : Nat), store wp (mpn_sub nb wp wsize p._mp_d p._mp_size.toNat).1⟩)
        else Outcome.ok ⟨(wsize : Nat), wp⟩) = Outcome.ok r ∧
      mpz_wf nb r ∧
      mpz_val nb r =
        if mpn_val (limbBase nb) (wp.take wsize) < mpz_val nb p
        then mpn_val (limbBase nb) (wp.take wsize)
        else mpn_val (limbBase nb) (wp.take wsize) - mpz_val nb p := by
  have hiff := size_cmp_iff nb wp wsize p hp hlen hlt hge
  by_cases hc : p._mp_size.toNat < wsize ∨
      (wsize = p._mp_size.toNat ∧ 0 ≤ mpn_cmp wp p._mp_d wsize)
  · have hle := hiff.mp hc
    have hn : p._mp_size.toNat ≤ wsize := by
      rcases hc with h | h
      · omega
      · omega
    obtain ⟨hbw, hsl, hslt, hsv⟩ := mpn_sub_spec nb wp wsize p._mp_d p._mp_size.toNat hlen
      hp.2.1 hn hlt hp.2.2.1 hle
    have hnz : ¬ (mpn_sub nb wp wsize p._mp_d p._mp_size.toNat).2 ≠ 0 := by simp [hbw]
    rw [if_pos hc, if_neg hnz]
    refine ⟨_, rfl, ?_⟩
    have hst : (store wp (mpn_sub nb wp wsize p._mp_d p._mp_size.toNat).1).take wsize
        = (mpn_sub nb wp wsize p._mp_d p._mp_size.toNat).1 := by
      have := store_take wp (mpn_sub nb wp wsize p._mp_d p._mp_size.toNat).1
      rwa [hsl] at this
    have hnorm := mpz_wf_normalize nb
      (store wp (mpn_sub nb wp wsize p._mp_d p._mp_size.toNat).1) wsize
      (by rw [store_length _ _ (by omega)]; exact hlen) (by rw [hst]; exact hslt)
    refine ⟨hnorm.1, ?_⟩
    rw [hnorm.2, hst, hsv, if_neg (by unfold mpz_val at hle ⊢; omega)]
    rfl
  · have hlt2 : mpn_val (limbBase nb) (wp.take wsize) < mpz_val nb p := by
      by_contra h
      exact hc (hiff.mpr (by omega))
    rw [if_neg hc, if_pos hlt2]
    refine ⟨_, rfl, mpz_wf_mk nb wp wsize hlen hlt hge, ?_⟩
    simp [mpz_val]

theorem modadd_body_spec (nb : Nat) (w u v p : Mpz) (hu : mpz_wf nb u) (hv : mpz_wf nb v)
    (hp : mpz_wf nb p) (hle : v._mp_size.toNat ≤ u._mp_size.toNat) :
    ∃ r, modadd_body nb w u v p = Outcome.ok r ∧ mpz_wf nb r ∧
      mpz_val nb r = modadd_val (mpz_val nb u) (mpz_val nb v) (mpz_val nb p) := by
  have hB := limbBase_pos nb
  have hUl := mpz_wf_take_length nb u hu
  have hVl := mpz_wf_take_length nb v hv
  obtain ⟨a, ha⟩ : ∃ a, a = mpn_add nb u._mp_d u._mp_size.toNat v._mp_d v._mp_size.toNat :=
    ⟨_, rfl⟩
  have ha2 : a = add_limbs (limbBase nb) (u._mp_d.take u._mp_size.toNat)
      (v._mp_d.take v._mp_size.toNat) 0 := ha
  have hal : a.1.length = u._mp_size.toNat := by rw [ha2, add_limbs_length, hUl]
  have hwl := MPZ_REALLOC_length w (u._mp_size.toNat + 1)
  have hset := store_set (MPZ_REALLOC w (u._mp_size.toNat + 1)) a.1 a.2 (by omega)
  rw [hal] at hset
  obtain ⟨hcy, hlt, hval⟩ := add_limbs_repr (limbBase nb) hB (u._mp_d.take u._mp_size.toNat)
    (v._mp_d.take v._mp_size.toNat)
    ((MPZ_REALLOC w (u._mp_size.toNat + 1)).drop (u._mp_size.toNat + 1))
    (by rw [hUl, hVl]; exact hle) hu.2.2.1 hv.2.2.1
  have hv2 := add_limbs_val (limbBase nb) (u._mp_d.take u._mp_size.toNat)
    (v._mp_d.take v._mp_size.toNat) 0 (by rw [hUl, hVl]; exact hle)
  rw [hUl, ← ha2] at hlt hval hv2
  rw [← ha2] at hcy
  rw [← hset] at hlt hval
  have hlen : u._mp_size.toNat + a.2
      ≤ ((store (MPZ_REALLOC w (u._mp_size.toNat + 1)) a.1).set u._mp_size.toNat a.2).length := by
    rw [List.length_set, store_length _ _ (by omega)]
    omega
  have hge : u._mp_size.toNat + a.2 = 0 ∨
      limbBase nb ^ (u._mp_size.toNat + a.2 - 1) ≤ mpz_val nb u + mpz_val nb v := by
    rcases Nat.le_one_iff_eq_zero_or_eq_one.mp hcy with h0 | h1
    · rw [h0, Nat.add_zero]
      rcases mpz_val_ge nb u hu with h | h
      · left; exact h
      · right; omega
    · right
      rw [h1, Nat.add_sub_cancel]
      rw [h1] at hv2
      unfold mpz_val
      omega
  obtain ⟨r, hr, hwf, hrv⟩ := modadd_tail nb _ _ p hp hlen hlt
    (hge.imp id (fun h => by rw [hval]; exact h))
  subst ha
  refine ⟨r, hr, hwf, ?_⟩
  rw [hrv, hval]
  rfl

/-- What `_mpn_modadd` does on well-formed non-negative operands: it returns,
normalized, the sum less `p` once when the sum is not below `p`. -/
theorem modadd_spec (nb : Nat) (w u v p : Mpz) (hu : mpz_wf nb u) (hv : mpz_wf nb v)
    (hp : mpz_wf nb p) :
    ∃ r, _mpn_modadd nb w u v p = Outcome.ok r ∧ mpz_wf nb r ∧
      mpz_val nb r = modadd_val (mpz_val nb u) (mpz_val nb v) (mpz_val nb p) := by
  unfold _mpn_modadd
  rw [if_neg (by have := hu.1; have := hv.1; have := hp.1; omega)]
  by_cases h : u._mp_size < v._mp_size
  · rw [if_pos h]
    have hle : u._mp_size.toNat ≤ v._mp_size.toNat := by omega
    obtain ⟨r, hr, hwf, hrv⟩ := modadd_body_spec nb w v u p hv hu hp hle
    exact ⟨r, hr, hwf, by rw [hrv]; unfold modadd_val; rw [Nat.add_comm]⟩
  · rw [if_neg h]
    have hle : v._mp_size.toNat ≤ u._mp_size.toNat := by omega
    exact modadd_body_spec nb w u v p hu hv hp hle

/-! ## `_mpn_modsub` -/

theorem size_le_of_val_lt (nb : Nat) (a b : Mpz) (ha : mpz_wf nb a) (hb : mpz_wf nb b)
    (h : mpz_val nb a ≤ mpz_val nb b) : a._mp_size.toNat ≤ b._mp_size.toNat := by
  by_contra hc
  have := mpz_val_lt_of_size_lt nb a b ha hb (by omega)
  omega

/-- What `_mpn_modsub` does on well-formed operands below `p`: it returns,
normalized, `u - v`, or `p - (v - u)` when `u < v`. -/
theorem modsub_spec (nb : Nat) (w u v p : Mpz) (hu : mpz_wf nb u) (hv : mpz_wf nb v)
    (hp : mpz_wf nb p) (hup : mpz_val nb u < mpz_val nb p) (hvp : mpz_val nb v < mpz_val nb p) :
    ∃ r, _mpn_modsub nb w u v p = Outcome.ok r ∧ mpz_wf nb r ∧
      mpz_val nb r = modsub_val (mpz_val nb u) (mpz_val nb v) (mpz_val nb p) := by
  have hus := size_le_of_val_lt nb u p hu hp (by omega)
  have hvs := size_le_of_val_lt nb v p hv hp (by omega)
  have hwl := MPZ_REALLOC_length w (p._mp_size.toNat + 1)
  have hiff := size_cmp_iff nb u._mp_d u._mp_size.toNat v hv hu.2.1 hu.2.2.1 (mpz_val_ge nb u hu)
  unfold _mpn_modsub
  rw [if_neg (by have := hu.1; have := hv.1; have := hp.1; omega)]
  simp only []
  by_cases hc : v._mp_size.toNat < u._mp_size.toNat ∨
      (u._mp_size.toNat = v._mp_size.toNat ∧ 0 ≤ mpn_cmp u._mp_d v._mp_d u._mp_size.toNat)
  · have hle : mpz_val nb v ≤ mpz_val nb u := hiff.mp hc
    have hn : v._mp_size.toNat ≤ u._mp_size.toNat := by
      rcases hc with h | h
      · omega
      · omega
    obtain ⟨hbw, hsl, hslt, hsv⟩ := mpn_sub_spec nb u._mp_d u._mp_size.toNat v._mp_d
      v._mp_size.toNat hu.2.1 hv.2.1 hn hu.2.2.1 hv.2.2.1 hle
    have hnb : ¬ (MPZ_REALLOC w (p._mp_size.toNat + 1)).length < u._mp_size.toNat := by omega
    have hnz : ¬ (mpn_sub nb u._mp_d u._mp_size.toNat v._mp_d v._mp_size.toNat).2 ≠ 0 := by
      simp [hbw]
    rw [if_pos hc, if_neg hnb, if_neg hnz]
    refine ⟨_, rfl, ?_⟩
    have hst := store_take (MPZ_REALLOC w (p._mp_size.toNat + 1))
      (mpn_sub nb u._mp_d u._mp_size.toNat v._mp_d v._mp_size.toNat).1
    rw [hsl] at hst
    have hnorm := mpz_wf_normalize nb (store (MPZ_REALLOC w (p._mp_size.toNat + 1))
      (mpn_sub nb u._mp_d u._mp_size.toNat v._mp_d v._mp_size.toNat).1) u._mp_size.toNat
      (by rw [store_length _ _ (by omega)]; omega) (by rw [hst]; exact hslt)
    refine ⟨hnorm.1, ?_⟩
    rw [hnorm.2, hst, hsv]
    unfold modsub_val
    rw [if_pos hle]
    rfl
  · have hlt : mpz_val nb u < mpz_val nb v := by
      by_contra h
      exact hc (hiff.mpr (Nat.le_of_not_lt h))
    have hn : u._mp_size.toNat ≤ v._mp_size.toNat := by omega
    obtain ⟨hbw, hsl, hslt, hsv⟩ := mpn_sub_spec nb v._mp_d v._mp_size.toNat u._mp_d
      u._mp_size.toNat hv.2.1 hu.2.1 hn hv.2.2.1 hu.2.2.1 (Nat.le_of_lt hlt)
    have hnb : ¬ (MPZ_REALLOC w (p._mp_size.toNat + 1)).length < v._mp_size.toNat := by omega
    have hnz : ¬ (mpn_sub nb v._mp_d v._mp_size.toNat u._mp_d u._mp_size.toNat).2 ≠ 0 := by
      simp [hbw]
    rw [if_neg hc, if_neg hnb, if_neg hnz]
    have hst := store_take (MPZ_REALLOC w (p._mp_size.toNat + 1))
      (mpn_sub nb v._mp_d v._mp_size.toNat u._mp_d u._mp_size.toNat).1
    rw [hsl] at hst
    have hl1 := store_length (MPZ_REALLOC w (p._mp_size.toNat + 1))
      (mpn_sub nb v._mp_d v._mp_size.toNat u._mp_d u._mp_size.toNat).1 (by omega)
    generalize store (MPZ_REALLOC w (p._mp_size.toNat + 1))
      (mpn_sub nb v._mp_d v._mp_size.toNat u._mp_d u._mp_size.toNat).1 = wp1 at hst hl1 ⊢
    have hnorm := mpz_wf_normalize nb wp1 v._mp_size.toNat (by omega) (by rw [hst]; exact hslt)
    rw [hst, hsv] at hnorm
    have hdv : mpz_val nb ⟨(MPN_NORMALIZE wp1 v._mp_size.toNat : Nat), wp1⟩
        = mpz_val nb v - mpz_val nb u := hnorm.2
    have hds := size_le_of_val_lt nb _ p hnorm.1 hp (by rw [hdv]; omega)
    simp only [Int.toNat_ofNat] at hds
    have hdv2 : mpn_val (limbBase nb) (wp1.take (MPN_NORMALIZE wp1 v._mp_size.toNat))
        = mpz_val nb v - mpz_val nb u := by
      rw [← hdv]; simp [mpz_val]
    obtain ⟨hbw2, hsl2, hslt2, hsv2⟩ := mpn_sub_spec nb p._mp_d p._mp_size.toNat wp1
      (MPN_NORMALIZE wp1 v._mp_size.toNat) hp.2.1
      (by have := MPN_NORMALIZE_le wp1 v._mp_size.toNat; omega) hds hp.2.2.1
      (by have := hnorm.1.2.2.1; simpa using this)
      (by rw [hdv2]; unfold mpz_val at hvp ⊢; omega)
    have hnp : ¬ p._mp_size.toNat < MPN_NORMALIZE wp1 v._mp_size.toNat := by omega
    have hnz2 : ¬ (mpn_sub nb p._mp_d p._mp_size.toNat wp1
        (MPN_NORMALIZE wp1 v._mp_size.toNat)).2 ≠ 0 := by simp [hbw2]
    rw [if_neg hnp, if_neg hnz2]
    refine ⟨_, rfl, ?_⟩
    have hst2 := store_take wp1
      (mpn_sub nb p._mp_d p._mp_size.toNat wp1 (MPN_NORMALIZE wp1 v._mp_size.toNat)).1
    rw [hsl2] at hst2
    have hnorm2 := mpz_wf_normalize nb (store wp1
      (mpn_sub nb p._mp_d p._mp_size.toNat wp1 (MPN_NORMALIZE wp1 v._mp_size.toNat)).1)
      p._mp_size.toNat (by rw [store_length _ _ (by omega)]; omega) (by rw [hst2]; exact hslt2)
    refine ⟨hnorm2.1, ?_⟩
    rw [hnorm2.2, hst2, hsv2, hdv2]
    unfold modsub_val
    rw [if_neg (by omega)]
    rfl

/-! ## Field addition and subtraction: the contract -/

/-- C1: for every modulus `p > 0` and all well-formed `u`, `v` with
`0 <= u < p` and `0 <= v < p`, `_mpn_modadd (w, u, v, p)` returns and leaves in
`w` the number `(u + v) mod p`. -/
theorem C1_modadd_is_sum_mod_p (nb : Nat) (w u v p : Mpz)
    (hu : mpz_wf nb u) (hv : mpz_wf nb v) (hp : mpz_wf nb p) (_hpos : 0 < mpz_val nb p)
    (hup : mpz_val nb u < mpz_val nb p) (hvp : mpz_val nb v < mpz_val nb p) :
    ∃ r, _mpn_modadd nb w u v p = Outcome.ok r ∧
      mpz_val nb r = (mpz_val nb u + mpz_val nb v) % mpz_val nb p := by
  obtain ⟨r, hr, _, hv⟩ := modadd_spec nb w u v p hu hv hp
  refine ⟨r, hr, ?_⟩
  rw [hv]
  unfold modadd_val
  split
  · rw [Nat.mod_eq_of_lt (by assumption)]
  · rw [Nat.mod_eq_sub_mod (by omega), Nat.mod_eq_of_lt (by omega)]

/-- C1 at a two-limb input with a carry out of the low limb and a subtraction
of `p`: `u = 2^65 - 1`, `v = 2^64 + 5`, `p = 2^65 + 7`, 64-bit limbs. -/
theorem C1_modadd_is_sum_mod_p_witness :
    mpz_wf 64 (mpz_of_limbs [18446744073709551615, 1]) ∧
    mpz_wf 64 (mpz_of_limbs [5, 1]) ∧ mpz_wf 64 (mpz_of_limbs [7, 2]) ∧
    0 < mpz_val 64 (mpz_of_limbs [7, 2]) ∧
    mpz_val 64 (mpz_of_limbs [18446744073709551615, 1]) < mpz_val 64 (mpz_of_limbs [7, 2]) ∧
    mpz_val 64 (mpz_of_limbs [5, 1]) < mpz_val 64 (mpz_of_limbs [7, 2]) ∧
    ∃ r, _mpn_modadd 64 (mpz_of_limbs []) (mpz_of_limbs [18446744073709551615, 1])
        (mpz_of_limbs [5, 1]) (mpz_of_limbs [7, 2]) = Outcome.ok r ∧
      mpz_val 64 r = (mpz_val 64 (mpz_of_limbs [18446744073709551615, 1])
        + mpz_val 64 (mpz_of_limbs [5, 1])) % mpz_val 64 (mpz_of_limbs [7, 2]) :=
  ⟨by decide, by decide, by decide, by decide, by decide, by decide,
    C1_modadd_is_sum_mod_p 64 _ _ _ _ (by decide) (by decide) (by decide) (by decide)
      (by decide) (by decide)⟩

/-- C2: for every modulus `p > 0` and all well-formed `u`, `v` in `[0, p)`,
`_mpn_modsub (w, u, v, p)` returns and leaves in `w` the non-negative residue
of `u - v` modulo `p`: `u - v` when `u >= v`, and `p - (v - u)` on the borrow
path; in particular `1` for `u = 0`, `v = p - 1` and `p - 1` for `u = p - 2`,
`v = p - 1`. -/
theorem C2_modsub_is_difference_mod_p (nb : Nat) (w u v p : Mpz)
    (hu : mpz_wf nb u) (hv : mpz_wf nb v) (hp : mpz_wf nb p) (_hpos : 0 < mpz_val nb p)
    (hup : mpz_val nb u < mpz_val nb p) (hvp : mpz_val nb v < mpz_val nb p) :
    ∃ r, _mpn_modsub nb w u v p = Outcome.ok r ∧
      ((mpz_val nb r : Int) = ((mpz_val nb u : Int) - (mpz_val nb v : Int)) % (mpz_val nb p : Int)) ∧
      (mpz_val nb v ≤ mpz_val nb u → mpz_val nb r = mpz_val nb u - mpz_val nb v) ∧
      (mpz_val nb u < mpz_val nb v →
        mpz_val nb r = mpz_val nb p - (mpz_val nb v - mpz_val nb u)) ∧
      (mpz_val nb u = 0 → mpz_val nb v = mpz_val nb p - 1 → 1 < mpz_val nb p →
        mpz_val nb r = 1) ∧
      (mpz_val nb u = mpz_val nb p - 2 → mpz_val nb v = mpz_val nb p - 1 → 1 < mpz_val nb p →
        mpz_val nb r = mpz_val nb p - 1) := by
  obtain ⟨r, hr, _, hv⟩ := modsub_spec nb w u v p hu hv hp hup hvp
  refine ⟨r, hr, ?_, ?_, ?_, ?_, ?_⟩
  · rw [hv]
    unfold modsub_val
    split
    · rename_i h
      rw [Int.emod_eq_of_lt (by omega) (by omega)]
      omega
    · rename_i h
      have e : ((mpz_val nb u : Int) - (mpz_val nb v : Int))
          = ((mpz_val nb p : Int) - ((mpz_val nb v : Int) - (mpz_val nb u : Int)))
            + (-1) * (mpz_val nb p : Int) := by ring
      rw [e, Int.add_mul_emod_self, Int.emod_eq_of_lt (by omega) (by omega)]
      omega
  · intro h; rw [hv]; unfold modsub_val; rw [if_pos h]
  · intro h; rw [hv]; unfold modsub_val; rw [if_neg (by omega)]
  · intro h0 h1 h2; rw [hv]; unfold modsub_val; split <;> omega
  · intro h0 h1 h2; rw [hv]; unfold modsub_val; split <;> omega

/-- C2 at the two-limb modulus `p = 2^65 + 7` with `u = 0` and `v = p - 1`
(borrow path, result `1`), 64-bit limbs. -/
theorem C2_modsub_is_difference_mod_p_witness :
    mpz_wf 64 (mpz_of_limbs []) ∧ mpz_wf 64 (mpz_of_limbs [6, 2]) ∧
    mpz_wf 64 (mpz_of_limbs [7, 2]) ∧ 0 < mpz_val 64 (mpz_of_limbs [7, 2]) ∧
    mpz_val 64 (mpz_of_limbs []) < mpz_val 64 (mpz_of_limbs [7, 2]) ∧
    mpz_val 64 (mpz_of_limbs [6, 2]) < mpz_val 64 (mpz_of_limbs [7, 2]) ∧
    ∃ r, _mpn_modsub 64 (mpz_of_limbs []) (mpz_of_limbs []) (mpz_of_limbs [6, 2])
        (mpz_of_limbs [7, 2]) = Outcome.ok r ∧
      ((mpz_val 64 r : Int) = ((mpz_val 64 (mpz_of_limbs []) : Int)
        - (mpz_val 64 (mpz_of_limbs [6, 2]) : Int)) % (mpz_val 64 (mpz_of_limbs [7, 2]) : Int)) ∧
      (mpz_val 64 (mpz_of_limbs [6, 2]) ≤ mpz_val 64 (mpz_of_limbs []) →
        mpz_val 64 r = mpz_val 64 (mpz_of_limbs []) - mpz_val 64 (mpz_of_limbs [6, 2])) ∧
      (mpz_val 64 (mpz_of_limbs []) < mpz_val 64 (mpz_of_limbs [6, 2]) →
        mpz_val 64 r = mpz_val 64 (mpz_of_limbs [7, 2])
          - (mpz_val 64 (mpz_of_limbs [6, 2]) - mpz_val 64 (mpz_of_limbs []))) ∧
      (mpz_val 64 (mpz_of_limbs []) = 0 →
        mpz_val 64 (mpz_of_limbs [6, 2]) = mpz_val 64 (mpz_of_limbs [7, 2]) - 1 →
        1 < mpz_val 64 (mpz_of_limbs [7, 2]) → mpz_val 64 r = 1) ∧
      (mpz_val 64 (mpz_of_limbs []) = mpz_val 64 (mpz_of_limbs [7, 2]) - 2 →
        mpz_val 64 (mpz_of_limbs [6, 2]) = mpz_val 64 (mpz_of_limbs [7, 2]) - 1 →
        1 < mpz_val 64 (mpz_of_limbs [7, 2]) →
        mpz_val 64 r = mpz_val 64 (mpz_of_limbs [7, 2]) - 1) :=
  ⟨by decide, by decide, by decide, by decide, by decide, by decide,
    C2_modsub_is_difference_mod_p 64 _ _ _ _ (by decide) (by decide) (by decide) (by decide)
      (by decide) (by decide)⟩

/-- C3: the canonical range `[0, p)` is closed under both field mutators: for
every `p > 0` and all well-formed `u`, `v` in `[0, p)`, `_mpn_modadd` and
`_mpn_modsub` both return a non-negative integer strictly below `p`. -/
theorem C3_canonical_range_closed (nb : Nat) (w u v p : Mpz)
    (hu : mpz_wf nb u) (hv : mpz_wf nb v) (hp : mpz_wf nb p) (_hpos : 0 < mpz_val nb p)
    (hup : mpz_val nb u < mpz_val nb p) (hvp : mpz_val nb v < mpz_val nb p) :
    (∃ r, _mpn_modadd nb w u v p = Outcome.ok r ∧ 0 ≤ r._mp_size ∧
      mpz_val nb r < mpz_val nb p) ∧
    (∃ r, _mpn_modsub nb w u v p = Outcome.ok r ∧ 0 ≤ r._mp_size ∧
      mpz_val nb r < mpz_val nb p) := by
  constructor
  · obtain ⟨r, hr, hwf, hv⟩ := modadd_spec nb w u v p hu hv hp
    refine ⟨r, hr, hwf.1, ?_⟩
    rw [hv]; unfold modadd_val; split <;> omega
  · obtain ⟨r, hr, hwf, hv⟩ := modsub_spec nb w u v p hu hv hp hup hvp
    refine ⟨r, hr, hwf.1, ?_⟩
    rw [hv]; unfold modsub_val; split <;> omega

/-- C3 at `u = v = p - 1` for the two-limb modulus `p = 2^65 + 7`, 64-bit limbs. -/
theorem C3_canonical_range_closed_witness :
    mpz_wf 64 (mpz_of_limbs [6, 2]) ∧ mpz_wf 64 (mpz_of_limbs [7, 2]) ∧
    0 < mpz_val 64 (mpz_of_limbs [7, 2]) ∧
    mpz_val 64 (mpz_of_limbs [6, 2]) < mpz_val 64 (mpz_of_limbs [7, 2]) ∧
    (∃ r, _mpn_modadd 64 (mpz_of_limbs []) (mpz_of_limbs [6, 2]) (mpz_of_limbs [6, 2])
        (mpz_of_limbs [7, 2]) = Outcome.ok r ∧ 0 ≤ r._mp_size ∧
      mpz_val 64 r < mpz_val 64 (mpz_of_limbs [7, 2])) ∧
    (∃ r, _mpn_modsub 64 (mpz_of_limbs []) (mpz_of_limbs [6, 2]) (mpz_of_limbs [6, 2])
        (mpz_of_limbs [7, 2]) = Outcome.ok r ∧ 0 ≤ r._mp_size ∧
      mpz_val 64 r < mpz_val 64 (mpz_of_limbs [7, 2])) :=
  ⟨by decide, by decide, by decide, by decide,
    C3_canonical_range_closed 64 _ _ _ _ (by decide) (by decide) (by decide) (by decide)
      (by decide) (by decide)⟩

/-- C4: zero is the additive identity of the field addition: for every `p > 0`,
every well-formed `a` in `[0, p)` and every well-formed `z` of value zero,
`_mpn_modadd (w, a, z, p)` and `_mpn_modadd (w, z, a, p)` both return `a`, and
the swap of the operands makes the two calls leave the same integer in `w`. -/
theorem C4_modadd_zero_identity (nb : Nat) (w a z p : Mpz)
    (ha : mpz_wf nb a) (hz : mpz_wf nb z) (hp : mpz_wf nb p) (_hpos : 0 < mpz_val nb p)
    (hap : mpz_val nb a < mpz_val nb p) (hz0 : mpz_val nb z = 0) :
    ∃ r1 r2, _mpn_modadd nb w a z p = Outcome.ok r1 ∧ _mpn_modadd nb w z a p = Outcome.ok r2 ∧
      mpz_val nb r1 = mpz_val nb a ∧ mpz_val nb r2 = mpz_val nb a ∧
      mpz_val nb r1 = mpz_val nb r2 := by
  obtain ⟨r1, hr1, _, hv1⟩ := modadd_spec nb w a z p ha hz hp
  obtain ⟨r2, hr2, _, hv2⟩ := modadd_spec nb w z a p hz ha hp
  have e1 : mpz_val nb r1 = mpz_val nb a := by
    rw [hv1, hz0]; unfold modadd_val; rw [Nat.add_zero, if_pos hap]
  have e2 : mpz_val nb r2 = mpz_val nb a := by
    rw [hv2, hz0]; unfold modadd_val; rw [Nat.zero_add, if_pos hap]
  exact ⟨r1, r2, hr1, hr2, e1, e2, by rw [e1, e2]⟩

/-- C4 at the two-limb `a = p - 1`, `p = 2^65 + 7`, with zero held in no limb:
the operands differ in limb size, so the second call swaps them. -/
theorem C4_modadd_zero_identity_witness :
    mpz_wf 64 (mpz_of_limbs [6, 2]) ∧ mpz_wf 64 (mpz_of_limbs []) ∧
    mpz_wf 64 (mpz_of_limbs [7, 2]) ∧ 0 < mpz_val 64 (mpz_of_limbs [7, 2]) ∧
    mpz_val 64 (mpz_of_limbs [6, 2]) < mpz_val 64 (mpz_of_limbs [7, 2]) ∧
    mpz_val 64 (mpz_of_limbs []) = 0 ∧
    ∃ r1 r2, _mpn_modadd 64 (mpz_of_limbs []) (mpz_of_limbs [6, 2]) (mpz_of_limbs [])
        (mpz_of_limbs [7, 2]) = Outcome.ok r1 ∧
      _mpn_modadd 64 (mpz_of_limbs []) (mpz_of_limbs []) (mpz_of_limbs [6, 2])
        (mpz_of_limbs [7, 2]) = Outcome.ok r2 ∧
      mpz_val 64 r1 = mpz_val 64 (mpz_of_limbs [6, 2]) ∧
      mpz_val 64 r2 = mpz_val 64 (mpz_of_limbs [6, 2]) ∧
      mpz_val 64 r1 = mpz_val 64 r2 :=
  ⟨by decide, by decide, by decide, by decide, by decide, by decide,
    C4_modadd_zero_identity 64 _ _ _ _ (by decide) (by decide) (by decide) (by decide)
      (by decide) (by decide)⟩

/-- C5: subtraction from zero yields the additive inverse: for every `p > 0`,
every well-formed `a` in `[0, p)` and every well-formed `z` of value zero,
`_mpn_modsub (w, z, a, p)` returns some `n` (equal to `0` for `a = 0`, through
the simple branch, and to `p - a` for `a > 0`, through the borrow branch), and
`_mpn_modadd (w2, a, n, p)` returns zero. -/
theorem C5_modsub_from_zero_is_inverse (nb : Nat) (w w2 a z p : Mpz)
    (ha : mpz_wf nb a) (hz : mpz_wf nb z) (hp : mpz_wf nb p) (_hpos : 0 < mpz_val nb p)
    (hap : mpz_val nb a < mpz_val nb p) (hz0 : mpz_val nb z = 0) :
    ∃ n r, _mpn_modsub nb w z a p = Outcome.ok n ∧ _mpn_modadd nb w2 a n p = Outcome.ok r ∧
      (mpz_val nb a = 0 → mpz_val nb n = 0) ∧
      (0 < mpz_val nb a → mpz_val nb n = mpz_val nb p - mpz_val nb a) ∧
      mpz_val nb r = 0 := by
  obtain ⟨n, hn, hnwf, hnv⟩ := modsub_spec nb w z a p hz ha hp (by omega) hap
  obtain ⟨r, hr, _, hrv⟩ := modadd_spec nb w2 a n p ha hnwf hp
  rw [hz0] at hnv
  unfold modsub_val at hnv
  refine ⟨n, r, hn, hr, ?_, ?_, ?_⟩
  · intro h0
    have hc : mpz_val nb a ≤ 0 := by omega
    rw [hnv, if_pos hc]; omega
  · intro h0
    have hc : ¬ mpz_val nb a ≤ 0 := by omega
    rw [hnv, if_neg hc]; omega
  · rw [hrv]
    unfold modadd_val
    by_cases hc : mpz_val nb a ≤ 0
    · rw [if_pos hc] at hnv
      split <;> omega
    · rw [if_neg hc] at hnv
      split <;> omega

/-- C5 at the two-limb `a = 2^64 + 5` for `p = 2^65 + 7`, 64-bit limbs: the
borrow branch of the subtraction, then the subtraction of `p` in the sum. -/
theorem C5_modsub_from_zero_is_inverse_witness :
    mpz_wf 64 (mpz_of_limbs [5, 1]) ∧ mpz_wf 64 (mpz_of_limbs []) ∧
    mpz_wf 64 (mpz_of_limbs [7, 2]) ∧ 0 < mpz_val 64 (mpz_of_limbs [7, 2]) ∧
    mpz_val 64 (mpz_of_limbs [5, 1]) < mpz_val 64 (mpz_of_limbs [7, 2]) ∧
    mpz_val 64 (mpz_of_limbs []) = 0 ∧
    ∃ n r, _mpn_modsub 64 (mpz_of_limbs []) (mpz_of_limbs []) (mpz_of_limbs [5, 1])
        (mpz_of_limbs [7, 2]) = Outcome.ok n ∧
      _mpn_modadd 64 (mpz_of_limbs []) (mpz_of_limbs [5, 1]) n (mpz_of_limbs [7, 2])
        = Outcome.ok r ∧
      (mpz_val 64 (mpz_of_limbs [5, 1]) = 0 → mpz_val 64 n = 0) ∧
      (0 < mpz_val 64 (mpz_of_limbs [5, 1]) →
        mpz_val 64 n = mpz_val 64 (mpz_of_limbs [7, 2]) - mpz_val 64 (mpz_of_limbs [5, 1])) ∧
      mpz_val 64 r = 0 :=
  ⟨by decide, by decide, by decide, by decide, by decide, by decide,
    C5_modsub_from_zero_is_inverse 64 _ _ _ _ _ (by decide) (by decide) (by decide) (by decide)
      (by decide) (by decide)⟩

/-! ## The Montgomery change of variables -/

theorem three_ne_zero_of_prime (p : Nat) (hp : p.Prime) (h3 : 3 < p) : (3 : ZMod p) ≠ 0 := by
  haveI := Fact.mk hp
  intro h
  have h1 : ((3 : Nat) : ZMod p) = 0 := by exact_mod_cast h
  rw [ZMod.natCast_zmod_eq_zero_iff_dvd] at h1
  have := Nat.le_of_dvd (by norm_num) h1
  omega

/-- The substitution `x = Bu - A/3`, `y = Bv` turns the Montgomery equation into
`B^3` times the internal equation. -/
theorem mo_substitution_identity (p : Nat) (hp : p.Prime) (h3 : 3 < p) (A B u v : ZMod p)
    (hB : B ≠ 0) :
    B * (B * v) ^ 2 - ((B * u - A * 3⁻¹) ^ 3 + A * (B * u - A * 3⁻¹) ^ 2 + (B * u - A * 3⁻¹))
      = B ^ 3 * (v ^ 2 - (u ^ 3 + (3 - A ^ 2) * (3 * B ^ 2)⁻¹ * u
          + (2 * A ^ 3 - 9 * A) * (27 * B ^ 3)⁻¹)) := by
  haveI := Fact.mk hp
  have h3ne := three_ne_zero_of_prime p hp h3
  have h27 : (27 : ZMod p) ≠ 0 := by
    have : (27 : ZMod p) = 3 ^ 3 := by norm_num
    rw [this]; exact pow_ne_zero _ h3ne
  field_simp
  ring

theorem mo_substitution_iff (p : Nat) (hp : p.Prime) (h3 : 3 < p) (A B : ZMod p) (hB : B ≠ 0)
    (Q : ZMod p × ZMod p) :
    mo_on_curve (mo_curve_coeff p B A) (ws_to_mo (mo_curve_coeff p B A) Q) ↔
      ws_on_curve (mo_curve_coeff p B A) Q := by
  haveI := Fact.mk hp
  have key := mo_substitution_identity p hp h3 A B Q.1 Q.2 hB
  have hB3 : B ^ 3 ≠ 0 := pow_ne_zero _ hB
  simp only [mo_on_curve, ws_on_curve, ws_to_mo, mo_curve_coeff]
  constructor
  · intro h
    have h0 : B ^ 3 * (Q.2 ^ 2 - (Q.1 ^ 3 + (3 - A ^ 2) * (3 * B ^ 2)⁻¹ * Q.1
        + (2 * A ^ 3 - 9 * A) * (27 * B ^ 3)⁻¹)) = 0 := by
      rw [← key, h, sub_self]
    exact sub_eq_zero.mp ((mul_eq_zero.mp h0).resolve_left hB3)
  · intro h
    have h0 : B * (B * Q.2) ^ 2 - ((B * Q.1 - A * 3⁻¹) ^ 3 + A * (B * Q.1 - A * 3⁻¹) ^ 2
        + (B * Q.1 - A * 3⁻¹)) = 0 := by
      rw [key, h, sub_self, mul_zero]
    exact sub_eq_zero.mp h0

/-- C8: the substitution documented in `ecurve.h` is equation-preserving: for
every prime `p > 3`, every `A`, every `B != 0` and every `(u, v)`, the pair
`(x, y) = (B * u - A/3, B * v)` satisfies `B * y^2 = x^3 + A * x^2 + x` if and
only if `(u, v)` satisfies `v^2 = u^3 + ws_a * u + ws_b` with
`ws_a = (3 - A^2)/(3 B^2)` and `ws_b = (2 A^3 - 9 A)/(27 B^3)`. -/
theorem C8_substitution_preserves_equation (p : Nat) (hp : p.Prime) (h3 : 3 < p)
    (A B : ZMod p) (hB : B ≠ 0) (u v : ZMod p) :
    B * (B * v) ^ 2 = (B * u - A * 3⁻¹) ^ 3 + A * (B * u - A * 3⁻¹) ^ 2 + (B * u - A * 3⁻¹) ↔
      ws_on_curve (mo_curve_coeff p B A) (u, v) := by
  have h := mo_substitution_iff p hp h3 A B hB (u, v)
  simpa only [mo_on_curve, ws_to_mo, mo_curve_coeff] using h

/-- C8 at `A = 1`, `B = 2`, `(u, v) = (4, 1)` over `GF(5)`. -/
theorem C8_substitution_preserves_equation_witness :
    Nat.Prime 5 ∧ 3 < 5 ∧ (2 : ZMod 5) ≠ 0 ∧
    ((2 : ZMod 5) * (2 * 1) ^ 2 = (2 * 4 - 1 * 3⁻¹) ^ 3 + 1 * (2 * 4 - 1 * 3⁻¹) ^ 2
        + (2 * 4 - 1 * 3⁻¹) ↔
      ws_on_curve (mo_curve_coeff 5 2 1) (4, 1)) :=
  ⟨by norm_num, by norm_num, by decide,
    C8_substitution_preserves_equation 5 (by norm_num) (by norm_num) 1 2 (by decide) 4 1⟩

/-! ## The Python binding -/

/-- C9, on the code: on arguments for which each setter `mpECurve_set_mpz_ws`,
`_ed`, `_mo`, `_te` reports the non-zero status `-1` (`p = 4`, `n = 0`), each of
the four class methods still returns a curve object, here with `ready = 0` and
the curve state the failed setter left. -/
theorem C9_create_returns_object_on_invalid_parameters :
    setter_status stubLib stubLib.mpECurve_set_mpz_ws invalidCurveArgs = some (-1) ∧
    ECurve_create_ws stubLib true invalidCurveArgs = PyResult.ok ⟨0, some []⟩ ∧
    setter_status stubLib stubLib.mpECurve_set_mpz_ed invalidCurveArgs = some (-1) ∧
    ECurve_create_ed stubLib true invalidCurveArgs = PyResult.ok ⟨0, some []⟩ ∧
    setter_status stubLib stubLib.mpECurve_set_mpz_mo invalidCurveArgs = some (-1) ∧
    ECurve_create_mo stubLib true invalidCurveArgs = PyResult.ok ⟨0, some []⟩ ∧
    setter_status stubLib stubLib.mpECurve_set_mpz_te invalidCurveArgs = some (-1) ∧
    ECurve_create_te stubLib true invalidCurveArgs = PyResult.ok ⟨0, some []⟩ := by
  decide

/-- Whatever status the setter reports, a class method whose arguments parse
and convert returns an object once the allocation succeeds. -/
theorem ECurve_create_ignores_status {Curve : Type} (lib : CurveLib Curve)
    (set_mpz : Curve → Nat → Nat → Nat → Nat → Nat → Nat → Nat → Nat → Int × Curve)
    (args : List PyObject) (status : Int) (h : setter_status lib set_mpz args = some status) :
    ∃ rop, ECurve_create lib set_mpz true args = PyResult.ok rop ∧ rop.ready = 0 := by
  unfold setter_status at h
  unfold ECurve_create
  split at h
  · exact absurd h (by simp)
  · split at h
    · exact ⟨_, rfl, rfl⟩
    · exact absurd h (by simp)

/-- C10: construction by name fails exactly when the registry lookup fails: for
every argument tuple holding a name string, on an object fresh from
`ECurve_new`, `ECurve_init` returns `-1` with `ValueError` set if and only if
`mpECurve_set_named` returns a non-zero status, returns `0` with `ready = 1` if
and only if the lookup returns `0`, and on failure leaves `ready` at `0`. -/
theorem C10_init_fails_iff_lookup_fails {Curve : Type} (lib : CurveLib Curve)
    (self : ECurve Curve) (args : List PyObject) (name : String)
    (hnew : ECurve_new Curve true = PyResult.ok self)
    (hparse : PyArg_ParseTuple_s args = some name) :
    (((ECurve_init lib self args).ret = -1 ∧
        (ECurve_init lib self args).exc
          = some (PyExc.ValueError, "Unable to find curve matching name")) ↔
      (lib.mpECurve_set_named lib.mpECurve_init name).1 ≠ 0) ∧
    (((ECurve_init lib self args).ret = 0 ∧ (ECurve_init lib self args).self.ready = 1) ↔
      (lib.mpECurve_set_named lib.mpECurve_init name).1 = 0) ∧
    ((lib.mpECurve_set_named lib.mpECurve_init name).1 ≠ 0 →
      (ECurve_init lib self args).self.ready = 0) := by
  have hready : self.ready = 0 := by
    unfold ECurve_new at hnew
    simp only [if_true] at hnew
    injection hnew with h
    rw [← h]
  unfold ECurve_init
  rw [hparse]
  simp only []
  by_cases hs : (lib.mpECurve_set_named lib.mpECurve_init name).1 = 0
  · have hn : ¬ (lib.mpECurve_set_named lib.mpECurve_init name).1 ≠ 0 := by simp [hs]
    rw [if_neg hn]
    simp [hs]
  · have hn : (lib.mpECurve_set_named lib.mpECurve_init name).1 ≠ 0 := hs
    rw [if_pos hn]
    simp [hs, hready]

/-- C10 on the stand-in library, for a name its registry does not hold. -/
theorem C10_init_fails_iff_lookup_fails_witness :
    ECurve_new (List Nat) true = PyResult.ok ⟨0, none⟩ ∧
    PyArg_ParseTuple_s [PyObject.str "nosuchcurve"] = some "nosuchcurve" ∧
    (((ECurve_init stubLib ⟨0, none⟩ [PyObject.str "nosuchcurve"]).ret = -1 ∧
        (ECurve_init stubLib ⟨0, none⟩ [PyObject.str "nosuchcurve"]).exc
          = some (PyExc.ValueError, "Unable to find curve matching name")) ↔
      (stubLib.mpECurve_set_named stubLib.mpECurve_init "nosuchcurve").1 ≠ 0) ∧
    (((ECurve_init stubLib ⟨0, none⟩ [PyObject.str "nosuchcurve"]).ret = 0 ∧
        (ECurve_init stubLib ⟨0, none⟩ [PyObject.str "nosuchcurve"]).self.ready = 1) ↔
      (stubLib.mpECurve_set_named stubLib.mpECurve_init "nosuchcurve").1 = 0) ∧
    ((stubLib.mpECurve_set_named stubLib.mpECurve_init "nosuchcurve").1 ≠ 0 →
      (ECurve_init stubLib ⟨0, none⟩ [PyObject.str "nosuchcurve"]).self.ready = 0) :=
  ⟨by decide, by decide,
    C10_init_fails_iff_lookup_fails stubLib ⟨0, none⟩ [PyObject.str "nosuchcurve"] "nosuchcurve"
      (by decide) (by decide)⟩

/-- C11: curve comparison exposes equality only: for every pair of `ECurve`
objects `a`, `b`, `a == b` is true iff `mpECurve_cmp (a, b) == 0` and `a != b`
is its exact negation; each of `<`, `<=`, `>`, `>=`, and every comparison with
an operand that is not an `ECurve`, gives `NULL` with `TypeError` set. -/
theorem C11_richcompare_equality_only {Curve : Type}
    (mpECurve_cmp : Option Curve → Option Curve → Int) (a b : ECurve Curve) (o : PyObject)
    (op : Int) :
    (ECurve_richcompare mpECurve_cmp a (.ecurve b) Py_EQ = PyResult.ok true ↔
      mpECurve_cmp a.ec b.ec = 0) ∧
    ECurve_richcompare mpECurve_cmp a (.ecurve b) Py_EQ
      = PyResult.ok (decide (mpECurve_cmp a.ec b.ec = 0)) ∧
    ECurve_richcompare mpECurve_cmp a (.ecurve b) Py_NE
      = PyResult.ok (!decide (mpECurve_cmp a.ec b.ec = 0)) ∧
    ECurve_richcompare mpECurve_cmp a (.ecurve b) Py_LT
      = PyResult.error PyExc.TypeError
          "Relative comparison (<, <=, >=, >) not valid for ECurve type" ∧
    ECurve_richcompare mpECurve_cmp a (.ecurve b) Py_LE
      = PyResult.error PyExc.TypeError
          "Relative comparison (<, <=, >=, >) not valid for ECurve type" ∧
    ECurve_richcompare mpECurve_cmp a (.ecurve b) Py_GT
      = PyResult.error PyExc.TypeError
          "Relative comparison (<, <=, >=, >) not valid for ECurve type" ∧
    ECurve_richcompare mpECurve_cmp a (.ecurve b) Py_GE
      = PyResult.error PyExc.TypeError
          "Relative comparison (<, <=, >=, >) not valid for ECurve type" ∧
    ECurve_richcompare mpECurve_cmp a (.object o) op
      = PyResult.error PyExc.TypeError
          "ECurve Comparison (=, !=) only supported for ECurve type" := by
  refine ⟨?_, ?_, ?_, rfl, rfl, rfl, rfl, rfl⟩
  · by_cases h : mpECurve_cmp a.ec b.ec = 0 <;> simp [ECurve_richcompare, Py_EQ, h]
  · by_cases h : mpECurve_cmp a.ec b.ec = 0 <;> simp [ECurve_richcompare, Py_EQ, h]
  · by_cases h : mpECurve_cmp a.ec b.ec = 0 <;> simp [ECurve_richcompare, Py_EQ, Py_NE, h]

theorem curve_names_loop_spec (append_fails : Nat → Bool) (hok : ∀ i, append_fails i = false)
    (list : List (Option String)) (i : Nat) (clist : List PyObject) (h : none ∈ list) :
    curve_names_loop append_fails list i clist
      = NamesResult.list (clist ++ (names_before_null list).map PyObject.str) := by
  induction list generalizing i clist with
  | nil => simp at h
  | cons x rest ih =>
    cases x with
    | none => simp [curve_names_loop, names_before_null]
    | some name =>
      have h1 : none ∈ rest := by simpa using h
      simp only [curve_names_loop, names_before_null, hok i]
      rw [if_neg (by simp), ih (i + 1) _ h1]
      simp

theorem names_before_null_get (list : List (Option String)) (i : Nat) (name : String)
    (h : (names_before_null list)[i]? = some name) : list[i]? = some (some name) := by
  induction list generalizing i with
  | nil => simp [names_before_null] at h
  | cons x rest ih =>
    cases x with
    | none => simp [names_before_null] at h
    | some n =>
      cases i with
      | zero => simpa [names_before_null] using h
      | succ j =>
        simp only [names_before_null, List.getElem?_cons_succ] at h ⊢
        exact ih j h

theorem names_before_null_end (list : List (Option String)) (h : none ∈ list) :
    list[(names_before_null list).length]? = some none := by
  induction list with
  | nil => simp at h
  | cons x rest ih =>
    cases x with
    | none => simp [names_before_null]
    | some n =>
      have h1 : none ∈ rest := by simpa using h
      simpa [names_before_null] using ih h1

/-- C12: listing the standard curve names preserves the order and content of
the registry: for every `NULL`-terminated name array, when no `PyList_Append`
fails, `ECurve_list_curve_names` returns a list whose length is the index of
the first `NULL` of the array and whose `i`-th element is the string of the
`i`-th entry of the array, for every `i`. -/
theorem C12_list_curve_names_preserves_order (list : List (Option String))
    (append_fails : Nat → Bool) (hnull : none ∈ list) (hok : ∀ i, append_fails i = false) :
    ∃ clist, ECurve_list_curve_names list append_fails = NamesResult.list clist ∧
      clist.length = (names_before_null list).length ∧
      list[clist.length]? = some none ∧
      ∀ i, i < clist.length →
        ∃ name, list[i]? = some (some name) ∧ clist[i]? = some (PyObject.str name) := by
  refine ⟨(names_before_null list).map PyObject.str, ?_, by simp, ?_, ?_⟩
  · unfold ECurve_list_curve_names
    rw [curve_names_loop_spec append_fails hok list 0 [] hnull]
    simp
  · rw [List.length_map]
    exact names_before_null_end list hnull
  · intro i hi
    rw [List.length_map] at hi
    have hget : (names_before_null list)[i]? = some ((names_before_null list)[i]) :=
      List.getElem?_eq_getElem hi
    refine ⟨(names_before_null list)[i], names_before_null_get list i _ hget, ?_⟩
    rw [List.getElem?_map, hget]
    rfl

/-- C12 on an array of three names, a `NULL`, and a further entry after it. -/
theorem C12_list_curve_names_preserves_order_witness :
    none ∈ [some "secp256k1", some "curve25519", some "E-222", none, some "x"] ∧
    (∀ i : Nat, (fun _ => false) i = false) ∧
    ∃ clist, ECurve_list_curve_names
        [some "secp256k1", some "curve25519", some "E-222", none, some "x"] (fun _ => false)
        = NamesResult.list clist ∧
      clist.length = (names_before_null
        [some "secp256k1", some "curve25519", some "E-222", none, some "x"]).length ∧
      [some "secp256k1", some "curve25519", some "E-222", none, some "x"][clist.length]?
        = some none ∧
      ∀ i, i < clist.length →
        ∃ name, [some "secp256k1", some "curve25519", some "E-222", none, some "x"][i]?
            = some (some name) ∧ clist[i]? = some (PyObject.str name) :=
  ⟨by decide, fun _ => rfl,
    C12_list_curve_names_preserves_order _ _ (by decide) (fun _ => rfl)⟩

/-! ## The borrow assertions -/

theorem modadd_body_eq_raw (nb : Nat) (w u v p : Mpz) :
    modadd_body nb w u v p =
      if p._mp_size.toNat < (modadd_raw_body nb w u v).2 ∨
          ((modadd_raw_body nb w u v).2 = p._mp_size.toNat ∧
            0 ≤ mpn_cmp (modadd_raw_body nb w u v).1 p._mp_d (modadd_raw_body nb w u v).2) then
        (if (mpn_sub nb (modadd_raw_body nb w u v).1 (modadd_raw_body nb w u v).2 p._mp_d
            p._mp_size.toNat).2 ≠ 0 then Outcome.abort Abort.borrowAssert
        else Outcome.ok ⟨(MPN_NORMALIZE (store (modadd_raw_body nb w u v).1
            (mpn_sub nb (modadd_raw_body nb w u v).1 (modadd_raw_body nb w u v).2 p._mp_d
              p._mp_size.toNat).1) (modadd_raw_body nb w u v).2 : Nat),
          store (modadd_raw_body nb w u v).1
            (mpn_sub nb (modadd_raw_body nb w u v).1 (modadd_raw_body nb w u v).2 p._mp_d
              p._mp_size.toNat).1⟩)
      else Outcome.ok ⟨((modadd_raw_body nb w u v).2 : Nat), (modadd_raw_body nb w u v).1⟩ :=
  rfl

/-- The raw sum of ordered operands is held normalized in `wsize` limbs. -/
theorem modadd_raw_body_spec (nb : Nat) (w u v : Mpz) (hu : mpz_wf nb u) (hv : mpz_wf nb v)
    (hle : v._mp_size.toNat ≤ u._mp_size.toNat) :
    (modadd_raw_body nb w u v).2 ≤ (modadd_raw_body nb w u v).1.length ∧
    (∀ x ∈ (modadd_raw_body nb w u v).1.take (modadd_raw_body nb w u v).2, x < limbBase nb) ∧
    mpn_val (limbBase nb) ((modadd_raw_body nb w u v).1.take (modadd_raw_body nb w u v).2)
      = mpz_val nb u + mpz_val nb v ∧
    ((modadd_raw_body nb w u v).2 = 0 ∨
      limbBase nb ^ ((modadd_raw_body nb w u v).2 - 1) ≤ mpz_val nb u + mpz_val nb v) := by
  have hB := limbBase_pos nb
  have hUl := mpz_wf_take_length nb u hu
  have hVl := mpz_wf_take_length nb v hv
  obtain ⟨a, ha⟩ : ∃ a, a = mpn_add nb u._mp_d u._mp_size.toNat v._mp_d v._mp_size.toNat :=
    ⟨_, rfl⟩
  have ha2 : a = add_limbs (limbBase nb) (u._mp_d.take u._mp_size.toNat)
      (v._mp_d.take v._mp_size.toNat) 0 := ha
  have hal : a.1.length = u._mp_size.toNat := by rw [ha2, add_limbs_length, hUl]
  have hwl := MPZ_REALLOC_length w (u._mp_size.toNat + 1)
  have hset := store_set (MPZ_REALLOC w (u._mp_size.toNat + 1)) a.1 a.2 (by omega)
  rw [hal] at hset
  obtain ⟨hcy, hlt, hval⟩ := add_limbs_repr (limbBase nb) hB (u._mp_d.take u._mp_size.toNat)
    (v._mp_d.take v._mp_size.toNat)
    ((MPZ_REALLOC w (u._mp_size.toNat + 1)).drop (u._mp_size.toNat + 1))
    (by rw [hUl, hVl]; exact hle) hu.2.2.1 hv.2.2.1
  have hv2 := add_limbs_val (limbBase nb) (u._mp_d.take u._mp_size.toNat)
    (v._mp_d.take v._mp_size.toNat) 0 (by rw [hUl, hVl]; exact hle)
  rw [hUl, ← ha2] at hlt hval hv2
  rw [← ha2] at hcy
  rw [← hset] at hlt hval
  have hraw : modadd_raw_body nb w u v
      = ((store (MPZ_REALLOC w (u._mp_size.toNat + 1)) a.1).set u._mp_size.toNat a.2,
          u._mp_size.toNat + a.2) := by rw [ha]; rfl
  rw [hraw]
  refine ⟨?_, hlt, hval, ?_⟩
  · show u._mp_size.toNat + a.2 ≤ _
    rw [List.length_set, store_length _ _ (by omega)]
    omega
  · show u._mp_size.toNat + a.2 = 0 ∨ limbBase nb ^ (u._mp_size.toNat + a.2 - 1) ≤ _
    rcases Nat.le_one_iff_eq_zero_or_eq_one.mp hcy with h0 | h1
    · rw [h0, Nat.add_zero]
      rcases mpz_val_ge nb u hu with h | h
      · left; exact h
      · right; omega
    · right
      rw [h1, Nat.add_sub_cancel]
      rw [h1] at hv2
      unfold mpz_val
      omega

/-- The raw sum of `_mpn_modadd`, after its swap, is held normalized. -/
theorem modadd_raw_spec (nb : Nat) (w u v : Mpz) (hu : mpz_wf nb u) (hv : mpz_wf nb v) :
    (modadd_raw nb w u v).2 ≤ (modadd_raw nb w u v).1.length ∧
    (∀ x ∈ (modadd_raw nb w u v).1.take (modadd_raw nb w u v).2, x < limbBase nb) ∧
    mpn_val (limbBase nb) ((modadd_raw nb w u v).1.take (modadd_raw nb w u v).2)
      = mpz_val nb u + mpz_val nb v ∧
    ((modadd_raw nb w u v).2 = 0 ∨
      limbBase nb ^ ((modadd_raw nb w u v).2 - 1) ≤ mpz_val nb u + mpz_val nb v) := by
  unfold modadd_raw
  by_cases h : u._mp_size < v._mp_size
  · rw [if_pos h]
    have hle : u._mp_size.toNat ≤ v._mp_size.toNat := by omega
    have := modadd_raw_body_spec nb w v u hv hu hle
    rw [Nat.add_comm (mpz_val nb v)] at this
    exact this
  · rw [if_neg h]
    have hle : v._mp_size.toNat ≤ u._mp_size.toNat := by omega
    exact modadd_raw_body_spec nb w u v hu hv hle

theorem modadd_eq_raw (nb : Nat) (w u v p : Mpz) (hu : 0 ≤ u._mp_size) (hv : 0 ≤ v._mp_size)
    (hp : 0 ≤ p._mp_size) :
    _mpn_modadd nb w u v p =
      if p._mp_size.toNat < (modadd_raw nb w u v).2 ∨
          ((modadd_raw nb w u v).2 = p._mp_size.toNat ∧
            0 ≤ mpn_cmp (modadd_raw nb w u v).1 p._mp_d (modadd_raw nb w u v).2) then
        (if (mpn_sub nb (modadd_raw nb w u v).1 (modadd_raw nb w u v).2 p._mp_d
            p._mp_size.toNat).2 ≠ 0 then Outcome.abort Abort.borrowAssert
        else Outcome.ok ⟨(MPN_NORMALIZE (store (modadd_raw nb w u v).1
            (mpn_sub nb (modadd_raw nb w u v).1 (modadd_raw nb w u v).2 p._mp_d
              p._mp_size.toNat).1) (modadd_raw nb w u v).2 : Nat),
          store (modadd_raw nb w u v).1
            (mpn_sub nb (modadd_raw nb w u v).1 (modadd_raw nb w u v).2 p._mp_d
              p._mp_size.toNat).1⟩)
      else Outcome.ok ⟨((modadd_raw nb w u v).2 : Nat), (modadd_raw nb w u v).1⟩ := by
  have hneg : ¬ (u._mp_size < 0 ∨ v._mp_size < 0 ∨ p._mp_size < 0) := by omega
  unfold _mpn_modadd modadd_raw
  rw [if_neg hneg]
  by_cases h : u._mp_size < v._mp_size
  · rw [if_pos h, if_pos h]; exact modadd_body_eq_raw nb w v u p
  · rw [if_neg h, if_neg h]; exact modadd_body_eq_raw nb w u v p

/-- C13: the borrow assertion of `_mpn_modadd` cannot fail: for all well-formed
non-negative `u`, `v`, `p` (no bound of `u`, `v` by `p`), the routine returns;
it is the conditional on the raw sum written out below; the raw sum is
`u + v`; and whenever the size test and `mpn_cmp` send it to the subtraction,
`p <= u + v` and `mpn_sub` returns borrow `0`, so `assert (bw_limb == 0)`
holds. -/
theorem C13_modadd_borrow_assert_holds (nb : Nat) (w u v p : Mpz)
    (hu : mpz_wf nb u) (hv : mpz_wf nb v) (hp : mpz_wf nb p) :
    (∃ r, _mpn_modadd nb w u v p = Outcome.ok r) ∧
    _mpn_modadd nb w u v p ≠ Outcome.abort Abort.borrowAssert ∧
    (_mpn_modadd nb w u v p =
      if p._mp_size.toNat < (modadd_raw nb w u v).2 ∨
          ((modadd_raw nb w u v).2 = p._mp_size.toNat ∧
            0 ≤ mpn_cmp (modadd_raw nb w u v).1 p._mp_d (modadd_raw nb w u v).2) then
        (if (mpn_sub nb (modadd_raw nb w u v).1 (modadd_raw nb w u v).2 p._mp_d
            p._mp_size.toNat).2 ≠ 0 then Outcome.abort Abort.borrowAssert
        else Outcome.ok ⟨(MPN_NORMALIZE (store (modadd_raw nb w u v).1
            (mpn_sub nb (modadd_raw nb w u v).1 (modadd_raw nb w u v).2 p._mp_d
              p._mp_size.toNat).1) (modadd_raw nb w u v).2 : Nat),
          store (modadd_raw nb w u v).1
            (mpn_sub nb (modadd_raw nb w u v).1 (modadd_raw nb w u v).2 p._mp_d
              p._mp_size.toNat).1⟩)
      else Outcome.ok ⟨((modadd_raw nb w u v).2 : Nat), (modadd_raw nb w u v).1⟩) ∧
    mpn_val (limbBase nb) ((modadd_raw nb w u v).1.take (modadd_raw nb w u v).2)
      = mpz_val nb u + mpz_val nb v ∧
    ((p._mp_size.toNat < (modadd_raw nb w u v).2 ∨
        ((modadd_raw nb w u v).2 = p._mp_size.toNat ∧
          0 ≤ mpn_cmp (modadd_raw nb w u v).1 p._mp_d (modadd_raw nb w u v).2)) →
      mpz_val nb p ≤ mpz_val nb u + mpz_val nb v ∧
      (mpn_sub nb (modadd_raw nb w u v).1 (modadd_raw nb w u v).2 p._mp_d
        p._mp_size.toNat).2 = 0) := by
  obtain ⟨r, hr, _, _⟩ := modadd_spec nb w u v p hu hv hp
  obtain ⟨hlen, hlt, hval, hge⟩ := modadd_raw_spec nb w u v hu hv
  refine ⟨⟨r, hr⟩, by rw [hr]; simp, modadd_eq_raw nb w u v p hu.1 hv.1 hp.1, hval, ?_⟩
  intro hc
  have hiff := size_cmp_iff nb (modadd_raw nb w u v).1 (modadd_raw nb w u v).2 p hp hlen hlt
    (hge.imp id (fun h => by rw [hval]; exact h))
  have hle := hiff.mp hc
  have hn : p._mp_size.toNat ≤ (modadd_raw nb w u v).2 := by
    rcases hc with h | h
    · omega
    · omega
  refine ⟨by rw [← hval]; exact hle, ?_⟩
  exact (mpn_sub_spec nb _ _ p._mp_d p._mp_size.toNat hlen hp.2.1 hn hlt hp.2.2.1 hle).1

/-- C13 at `u = v = 2^128 - 1` and `p = 5` with 64-bit limbs: operands far above
`p`, a carry into a third limb, and the subtraction of `p`. -/
theorem C13_modadd_borrow_assert_holds_witness :
    mpz_wf 64 M128 ∧ mpz_wf 64 N5 ∧
    (((∃ r, _mpn_modadd 64 W0 M128 M128 N5 = Outcome.ok r) ∧
    _mpn_modadd 64 W0 M128 M128 N5 ≠ Outcome.abort Abort.borrowAssert ∧
    (_mpn_modadd 64 W0 M128 M128 N5 =
      if N5._mp_size.toNat < (modadd_raw 64 W0 M128 M128).2 ∨
          ((modadd_raw 64 W0 M128 M128).2 = N5._mp_size.toNat ∧
            0 ≤ mpn_cmp (modadd_raw 64 W0 M128 M128).1 N5._mp_d (modadd_raw 64 W0 M128 M128).2) then
        (if (mpn_sub 64 (modadd_raw 64 W0 M128 M128).1 (modadd_raw 64 W0 M128 M128).2 N5._mp_d
            N5._mp_size.toNat).2 ≠ 0 then Outcome.abort Abort.borrowAssert
        else Outcome.ok ⟨(MPN_NORMALIZE (store (modadd_raw 64 W0 M128 M128).1
            (mpn_sub 64 (modadd_raw 64 W0 M128 M128).1 (modadd_raw 64 W0 M128 M128).2 N5._mp_d
              N5._mp_size.toNat).1) (modadd_raw 64 W0 M128 M128).2 : Nat),
          store (modadd_raw 64 W0 M128 M128).1
            (mpn_sub 64 (modadd_raw 64 W0 M128 M128).1 (modadd_raw 64 W0 M128 M128).2 N5._mp_d
              N5._mp_size.toNat).1⟩)
      else Outcome.ok ⟨((modadd_raw 64 W0 M128 M128).2 : Nat), (modadd_raw 64 W0 M128 M128).1⟩) ∧
    mpn_val (limbBase 64) ((modadd_raw 64 W0 M128 M128).1.take (modadd_raw 64 W0 M128 M128).2)
      = mpz_val 64 M128 + mpz_val 64 M128 ∧
    ((N5._mp_size.toNat < (modadd_raw 64 W0 M128 M128).2 ∨
        ((modadd_raw 64 W0 M128 M128).2 = N5._mp_size.toNat ∧
          0 ≤ mpn_cmp (modadd_raw 64 W0 M128 M128).1 N5._mp_d (modadd_raw 64 W0 M128 M128).2)) →
      mpz_val 64 N5 ≤ mpz_val 64 M128 + mpz_val 64 M128 ∧
      (mpn_sub 64 (modadd_raw 64 W0 M128 M128).1 (modadd_raw 64 W0 M128 M128).2 N5._mp_d
        N5._mp_size.toNat).2 = 0))) :=
  ⟨by decide, by decide,
    C13_modadd_borrow_assert_holds 64 W0 M128 M128 N5
      (by decide) (by decide) (by decide)⟩

/-- The borrow path of `_mpn_modsub`: the reversed difference is `v - u`, it
fits in the limbs of `p`, and neither subtraction leaves a borrow. -/
theorem modsub_borrow_path (nb : Nat) (w u v p : Mpz) (hu : mpz_wf nb u) (hv : mpz_wf nb v)
    (hp : mpz_wf nb p) (hvp : mpz_val nb v < mpz_val nb p) (hlt : mpz_val nb u < mpz_val nb v) :
    (mpn_sub nb v._mp_d v._mp_size.toNat u._mp_d u._mp_size.toNat).2 = 0 ∧
    mpn_val (limbBase nb) ((modsub_diff nb w u v p).1.take (modsub_diff nb w u v p).2)
      = mpz_val nb v - mpz_val nb u ∧
    (modsub_diff nb w u v p).2 ≤ p._mp_size.toNat ∧
    (mpn_sub nb p._mp_d p._mp_size.toNat (modsub_diff nb w u v p).1
      (modsub_diff nb w u v p).2).2 = 0 := by
  have hvs := size_le_of_val_lt nb v p hv hp (by omega)
  have hn := size_le_of_val_lt nb u v hu hv (by omega)
  have hwl := MPZ_REALLOC_length w (p._mp_size.toNat + 1)
  obtain ⟨hbw, hsl, hslt, hsv⟩ := mpn_sub_spec nb v._mp_d v._mp_size.toNat u._mp_d
    u._mp_size.toNat hv.2.1 hu.2.1 hn hv.2.2.1 hu.2.2.1 (Nat.le_of_lt hlt)
  have hst := store_take (MPZ_REALLOC w (p._mp_size.toNat + 1))
    (mpn_sub nb v._mp_d v._mp_size.toNat u._mp_d u._mp_size.toNat).1
  rw [hsl] at hst
  have hl1 := store_length (MPZ_REALLOC w (p._mp_size.toNat + 1))
    (mpn_sub nb v._mp_d v._mp_size.toNat u._mp_d u._mp_size.toNat).1 (by omega)
  have hd : modsub_diff nb w u v p
      = (store (MPZ_REALLOC w (p._mp_size.toNat + 1))
          (mpn_sub nb v._mp_d v._mp_size.toNat u._mp_d u._mp_size.toNat).1,
        MPN_NORMALIZE (store (MPZ_REALLOC w (p._mp_size.toNat + 1))
          (mpn_sub nb v._mp_d v._mp_size.toNat u._mp_d u._mp_size.toNat).1) v._mp_size.toNat) :=
    rfl
  rw [hd]
  generalize store (MPZ_REALLOC w (p._mp_size.toNat + 1))
    (mpn_sub nb v._mp_d v._mp_size.toNat u._mp_d u._mp_size.toNat).1 = wp1 at hst hl1 ⊢
  have hnorm := mpz_wf_normalize nb wp1 v._mp_size.toNat (by omega) (by rw [hst]; exact hslt)
  rw [hst, hsv] at hnorm
  have hdv : mpz_val nb ⟨(MPN_NORMALIZE wp1 v._mp_size.toNat : Nat), wp1⟩
      = mpz_val nb v - mpz_val nb u := hnorm.2
  have hds := size_le_of_val_lt nb _ p hnorm.1 hp (by rw [hdv]; omega)
  simp only [Int.toNat_ofNat] at hds
  have hdv2 : mpn_val (limbBase nb) (wp1.take (MPN_NORMALIZE wp1 v._mp_size.toNat))
      = mpz_val nb v - mpz_val nb u := by
    rw [← hdv]; simp [mpz_val]
  obtain ⟨hbw2, _, _, _⟩ := mpn_sub_spec nb p._mp_d p._mp_size.toNat wp1
    (MPN_NORMALIZE wp1 v._mp_size.toNat) hp.2.1
    (by have := MPN_NORMALIZE_le wp1 v._mp_size.toNat; omega) hds hp.2.2.1
    (by have := hnorm.1.2.2.1; simpa using this)
    (by rw [hdv2]; unfold mpz_val at hvp ⊢; omega)
  exact ⟨hbw, hdv2, hds, hbw2⟩

/-- C14: the three borrow assertions of `_mpn_modsub` hold under the field
precondition: for every `p > 0` and all well-formed `u`, `v` in `[0, p)` the
routine returns; the size test with `mpn_cmp` takes the simple branch exactly
when `v <= u`, where `mpn_sub` of `u - v` returns borrow `0`; on the borrow
branch `mpn_sub` of `v - u` returns borrow `0`, the normalized difference is
`v - u <= p` in at most as many limbs as `p`, and `mpn_sub` of `p - (v - u)`
returns borrow `0`. -/
theorem C14_modsub_borrow_asserts_hold (nb : Nat) (w u v p : Mpz)
    (hu : mpz_wf nb u) (hv : mpz_wf nb v) (hp : mpz_wf nb p) (_hpos : 0 < mpz_val nb p)
    (hup : mpz_val nb u < mpz_val nb p) (hvp : mpz_val nb v < mpz_val nb p) :
    (∃ r, _mpn_modsub nb w u v p = Outcome.ok r) ∧
    _mpn_modsub nb w u v p ≠ Outcome.abort Abort.borrowAssert ∧
    ((v._mp_size.toNat < u._mp_size.toNat ∨
        (u._mp_size.toNat = v._mp_size.toNat ∧
          0 ≤ mpn_cmp u._mp_d v._mp_d u._mp_size.toNat)) ↔ mpz_val nb v ≤ mpz_val nb u) ∧
    (mpz_val nb v ≤ mpz_val nb u →
      (mpn_sub nb u._mp_d u._mp_size.toNat v._mp_d v._mp_size.toNat).2 = 0) ∧
    (mpz_val nb u < mpz_val nb v →
      (mpn_sub nb v._mp_d v._mp_size.toNat u._mp_d u._mp_size.toNat).2 = 0 ∧
      mpn_val (limbBase nb) ((modsub_diff nb w u v p).1.take (modsub_diff nb w u v p).2)
        = mpz_val nb v - mpz_val nb u ∧
      mpz_val nb v - mpz_val nb u ≤ mpz_val nb p ∧
      (modsub_diff nb w u v p).2 ≤ p._mp_size.toNat ∧
      (mpn_sub nb p._mp_d p._mp_size.toNat (modsub_diff nb w u v p).1
        (modsub_diff nb w u v p).2).2 = 0) := by
  obtain ⟨r, hr, _, _⟩ := modsub_spec nb w u v p hu hv hp hup hvp
  refine ⟨⟨r, hr⟩, by rw [hr]; simp, ?_, ?_, ?_⟩
  · exact size_cmp_iff nb u._mp_d u._mp_size.toNat v hv hu.2.1 hu.2.2.1 (mpz_val_ge nb u hu)
  · intro hle
    have hn := size_le_of_val_lt nb v u hv hu hle
    exact (mpn_sub_spec nb u._mp_d u._mp_size.toNat v._mp_d v._mp_size.toNat hu.2.1 hv.2.1 hn
      hu.2.2.1 hv.2.2.1 hle).1
  · intro hlt
    obtain ⟨h1, h2, h3, h4⟩ := modsub_borrow_path nb w u v p hu hv hp hvp hlt
    exact ⟨h1, h2, by omega, h3, h4⟩

/-- C14 on the borrow path, at `u = 2^64 + 5`, `v = p - 1` for the two-limb
modulus `p = 2^65 + 7`, 64-bit limbs. -/
theorem C14_modsub_borrow_asserts_hold_witness :
    mpz_wf 64 A64 ∧ mpz_wf 64 P65m1 ∧ mpz_wf 64 P65 ∧
    0 < mpz_val 64 P65 ∧ mpz_val 64 A64 < mpz_val 64 P65 ∧
    mpz_val 64 P65m1 < mpz_val 64 P65 ∧
    (((∃ r, _mpn_modsub 64 W0 A64 P65m1 P65 = Outcome.ok r) ∧
    _mpn_modsub 64 W0 A64 P65m1 P65 ≠ Outcome.abort Abort.borrowAssert ∧
    ((P65m1._mp_size.toNat < A64._mp_size.toNat ∨
        (A64._mp_size.toNat = P65m1._mp_size.toNat ∧
          0 ≤ mpn_cmp A64._mp_d P65m1._mp_d A64._mp_size.toNat)) ↔ mpz_val 64 P65m1 ≤ mpz_val 64 A64) ∧
    (mpz_val 64 P65m1 ≤ mpz_val 64 A64 →
      (mpn_sub 64 A64._mp_d A64._mp_size.toNat P65m1._mp_d P65m1._mp_size.toNat).2 = 0) ∧
    (mpz_val 64 A64 < mpz_val 64 P65m1 →
      (mpn_sub 64 P65m1._mp_d P65m1._mp_size.toNat A64._mp_d A64._mp_size.toNat).2 = 0 ∧
      mpn_val (limbBase 64) ((modsub_diff 64 W0 A64 P65m1 P65).1.take (modsub_diff 64 W0 A64 P65m1 P65).2)
        = mpz_val 64 P65m1 - mpz_val 64 A64 ∧
      mpz_val 64 P65m1 - mpz_val 64 A64 ≤ mpz_val 64 P65 ∧
      (modsub_diff 64 W0 A64 P65m1 P65).2 ≤ P65._mp_size.toNat ∧
      (mpn_sub 64 P65._mp_d P65._mp_size.toNat (modsub_diff 64 W0 A64 P65m1 P65).1
        (modsub_diff 64 W0 A64 P65m1 P65).2).2 = 0))) :=
  ⟨by decide, by decide, by decide, by decide, by decide, by decide,
    C14_modsub_borrow_asserts_hold 64 W0 A64 P65m1 P65
      (by decide) (by decide) (by decide) (by decide) (by decide) (by decide)⟩

/-! ## One conditional subtraction, inverses, normalization -/

/-- C15: `_mpn_modadd` performs one conditional subtraction: for all well-formed
non-negative `u`, `v` and every `p > 0` it returns `u + v` when `u + v < p` and
`u + v - p` otherwise; so the result is congruent to `u + v` modulo `p` for all
inputs, and it is below `p` if and only if `u + v < 2p`. -/
theorem C15_modadd_one_conditional_subtraction (nb : Nat) (w u v p : Mpz)
    (hu : mpz_wf nb u) (hv : mpz_wf nb v) (hp : mpz_wf nb p) (hpos : 0 < mpz_val nb p) :
    ∃ r, _mpn_modadd nb w u v p = Outcome.ok r ∧
      (mpz_val nb u + mpz_val nb v < mpz_val nb p →
        mpz_val nb r = mpz_val nb u + mpz_val nb v) ∧
      (mpz_val nb p ≤ mpz_val nb u + mpz_val nb v →
        mpz_val nb r = mpz_val nb u + mpz_val nb v - mpz_val nb p) ∧
      mpz_val nb r % mpz_val nb p = (mpz_val nb u + mpz_val nb v) % mpz_val nb p ∧
      (mpz_val nb r < mpz_val nb p ↔ mpz_val nb u + mpz_val nb v < 2 * mpz_val nb p) := by
  obtain ⟨r, hr, _, hrv⟩ := modadd_spec nb w u v p hu hv hp
  unfold modadd_val at hrv
  refine ⟨r, hr, ?_, ?_, ?_, ?_⟩
  · intro h; rw [hrv, if_pos h]
  · intro h; rw [hrv, if_neg (by omega)]
  · rw [hrv]
    split
    · rfl
    · rename_i h
      rw [Nat.mod_eq_sub_mod (a := mpz_val nb u + mpz_val nb v) (by omega)]
  · rw [hrv]
    split <;> omega

/-- C15 at `u = v = 2^128 - 1`, `p = 5`, 64-bit limbs: the sum is far above
`2p`, one subtraction is made, and the result is not below `p`. -/
theorem C15_modadd_one_conditional_subtraction_witness :
    mpz_wf 64 M128 ∧ mpz_wf 64 N5 ∧ 0 < mpz_val 64 N5 ∧
    ∃ r, _mpn_modadd 64 W0 M128 M128 N5 = Outcome.ok r ∧
      (mpz_val 64 M128 + mpz_val 64 M128 < mpz_val 64 N5 →
        mpz_val 64 r = mpz_val 64 M128 + mpz_val 64 M128) ∧
      (mpz_val 64 N5 ≤ mpz_val 64 M128 + mpz_val 64 M128 →
        mpz_val 64 r = mpz_val 64 M128 + mpz_val 64 M128 - mpz_val 64 N5) ∧
      mpz_val 64 r % mpz_val 64 N5 = (mpz_val 64 M128 + mpz_val 64 M128) % mpz_val 64 N5 ∧
      (mpz_val 64 r < mpz_val 64 N5 ↔ mpz_val 64 M128 + mpz_val 64 M128 < 2 * mpz_val 64 N5) :=
  ⟨by decide, by decide, by decide,
    C15_modadd_one_conditional_subtraction 64 W0 M128 M128 N5 (by decide) (by decide)
      (by decide) (by decide)⟩

/-- C16: modular subtraction undoes modular addition and conversely: for every
`p > 0` and all well-formed `a`, `b` in `[0, p)`, `_mpn_modadd (a, b, p)`
returns some `s` with `_mpn_modsub (s, b, p) = a`, and `_mpn_modsub (a, b, p)`
returns some `d` with `_mpn_modadd (d, b, p) = a`. -/
theorem C16_modsub_undoes_modadd (nb : Nat) (w w2 a b p : Mpz)
    (ha : mpz_wf nb a) (hb : mpz_wf nb b) (hp : mpz_wf nb p) (_hpos : 0 < mpz_val nb p)
    (hap : mpz_val nb a < mpz_val nb p) (hbp : mpz_val nb b < mpz_val nb p) :
    (∃ s r, _mpn_modadd nb w a b p = Outcome.ok s ∧ _mpn_modsub nb w2 s b p = Outcome.ok r ∧
      mpz_val nb r = mpz_val nb a) ∧
    (∃ d r, _mpn_modsub nb w a b p = Outcome.ok d ∧ _mpn_modadd nb w2 d b p = Outcome.ok r ∧
      mpz_val nb r = mpz_val nb a) := by
  constructor
  · obtain ⟨s, hs, hswf, hsv⟩ := modadd_spec nb w a b p ha hb hp
    unfold modadd_val at hsv
    have hsp : mpz_val nb s < mpz_val nb p := by rw [hsv]; split <;> omega
    obtain ⟨r, hr, _, hrv⟩ := modsub_spec nb w2 s b p hswf hb hp hsp hbp
    refine ⟨s, r, hs, hr, ?_⟩
    rw [hrv]
    unfold modsub_val
    by_cases h : mpz_val nb a + mpz_val nb b < mpz_val nb p
    · rw [if_pos h] at hsv
      rw [if_pos (by omega)]; omega
    · rw [if_neg h] at hsv
      rw [if_neg (by omega)]; omega
  · obtain ⟨d, hd, hdwf, hdv⟩ := modsub_spec nb w a b p ha hb hp hap hbp
    unfold modsub_val at hdv
    obtain ⟨r, hr, _, hrv⟩ := modadd_spec nb w2 d b p hdwf hb hp
    refine ⟨d, r, hd, hr, ?_⟩
    rw [hrv]
    unfold modadd_val
    by_cases h : mpz_val nb b ≤ mpz_val nb a
    · rw [if_pos h] at hdv
      rw [if_pos (by omega)]; omega
    · rw [if_neg h] at hdv
      rw [if_neg (by omega)]; omega

/-- C16 at `a = 2^64 + 5`, `b = p - 1` for the two-limb modulus `p = 2^65 + 7`,
64-bit limbs: the sum passes `p` and the difference borrows. -/
theorem C16_modsub_undoes_modadd_witness :
    mpz_wf 64 A64 ∧ mpz_wf 64 P65m1 ∧ mpz_wf 64 P65 ∧ 0 < mpz_val 64 P65 ∧
    mpz_val 64 A64 < mpz_val 64 P65 ∧ mpz_val 64 P65m1 < mpz_val 64 P65 ∧
    (∃ s r, _mpn_modadd 64 W0 A64 P65m1 P65 = Outcome.ok s ∧
      _mpn_modsub 64 W0 s P65m1 P65 = Outcome.ok r ∧ mpz_val 64 r = mpz_val 64 A64) ∧
    (∃ d r, _mpn_modsub 64 W0 A64 P65m1 P65 = Outcome.ok d ∧
      _mpn_modadd 64 W0 d P65m1 P65 = Outcome.ok r ∧ mpz_val 64 r = mpz_val 64 A64) :=
  ⟨by decide, by decide, by decide, by decide, by decide, by decide,
    C16_modsub_undoes_modadd 64 W0 W0 A64 P65m1 P65 (by decide) (by decide) (by decide)
      (by decide) (by decide) (by decide)⟩

/-- A well-formed integer is zero exactly when its size is zero. -/
theorem mpz_val_eq_zero_iff (nb : Nat) (z : Mpz) (h : mpz_wf nb z) :
    mpz_val nb z = 0 ↔ z._mp_size = 0 := by
  constructor
  · intro h0
    rcases mpz_val_ge nb z h with hs | hs
    · have := h.1; omega
    · have hpos : 0 < limbBase nb ^ (z._mp_size.toNat - 1) :=
        Nat.pos_pow_of_pos _ (limbBase_pos nb)
      omega
  · intro hs
    unfold mpz_val
    rw [hs]
    rfl

/-- C18: both routines keep the limb representation normalized: for every
`p > 0` and all well-formed `u`, `v` in `[0, p)`, the size `_mpn_modadd` and
`_mpn_modsub` store in `SIZ (w)` is non-negative and within the array, every
limb in use is below the base, the size is `0` exactly when the result is zero,
and otherwise the limb at index `SIZ (w) - 1` is non-zero; this holds on the
path of `_mpn_modadd` that takes no subtraction as on the others. -/
theorem C18_results_normalized (nb : Nat) (w u v p : Mpz)
    (hu : mpz_wf nb u) (hv : mpz_wf nb v) (hp : mpz_wf nb p) (_hpos : 0 < mpz_val nb p)
    (hup : mpz_val nb u < mpz_val nb p) (hvp : mpz_val nb v < mpz_val nb p) :
    (∃ r, _mpn_modadd nb w u v p = Outcome.ok r ∧
      0 ≤ r._mp_size ∧ r._mp_size.toNat ≤ r._mp_d.length ∧
      (∀ x ∈ r._mp_d.take r._mp_size.toNat, x < limbBase nb) ∧
      (mpz_val nb r = 0 ↔ r._mp_size = 0) ∧
      (r._mp_size ≠ 0 → r._mp_d.getD (r._mp_size.toNat - 1) 0 ≠ 0) ∧
      (mpz_val nb u + mpz_val nb v < mpz_val nb p →
        r._mp_size = ((modadd_raw nb w u v).2 : Nat) ∧ r._mp_d = (modadd_raw nb w u v).1)) ∧
    (∃ r, _mpn_modsub nb w u v p = Outcome.ok r ∧
      0 ≤ r._mp_size ∧ r._mp_size.toNat ≤ r._mp_d.length ∧
      (∀ x ∈ r._mp_d.take r._mp_size.toNat, x < limbBase nb) ∧
      (mpz_val nb r = 0 ↔ r._mp_size = 0) ∧
      (r._mp_size ≠ 0 → r._mp_d.getD (r._mp_size.toNat - 1) 0 ≠ 0)) := by
  constructor
  · obtain ⟨r, hr, hwf, _⟩ := modadd_spec nb w u v p hu hv hp
    refine ⟨r, hr, hwf.1, hwf.2.1, hwf.2.2.1, mpz_val_eq_zero_iff nb r hwf, ?_, ?_⟩
    · intro hne
      exact hwf.2.2.2.resolve_left (by have := hwf.1; omega)
    · intro hlt
      obtain ⟨hlen, hlim, hval, hge⟩ := modadd_raw_spec nb w u v hu hv
      have hiff := size_cmp_iff nb (modadd_raw nb w u v).1 (modadd_raw nb w u v).2 p hp hlen
        hlim (hge.imp id (fun h => by rw [hval]; exact h))
      have hnc : ¬ (p._mp_size.toNat < (modadd_raw nb w u v).2 ∨
          ((modadd_raw nb w u v).2 = p._mp_size.toNat ∧
            0 ≤ mpn_cmp (modadd_raw nb w u v).1 p._mp_d (modadd_raw nb w u v).2)) := by
        intro hc
        have := hiff.mp hc
        omega
      have heq := modadd_eq_raw nb w u v p hu.1 hv.1 hp.1
      rw [if_neg hnc, hr] at heq
      injection heq with heq
      rw [heq]
      exact ⟨rfl, rfl⟩
  · obtain ⟨r, hr, hwf, _⟩ := modsub_spec nb w u v p hu hv hp hup hvp
    refine ⟨r, hr, hwf.1, hwf.2.1, hwf.2.2.1, mpz_val_eq_zero_iff nb r hwf, ?_⟩
    intro hne
    exact hwf.2.2.2.resolve_left (by have := hwf.1; omega)

/-- C18 at `u = 2^64 + 5`, `v = 5`, `p = 2^65 + 7`, 64-bit limbs: the sum stays
below `p`, so `_mpn_modadd` takes no subtraction and calls no `MPN_NORMALIZE`. -/
theorem C18_results_normalized_witness :
    mpz_wf 64 A64 ∧ mpz_wf 64 N5 ∧ mpz_wf 64 P65 ∧ 0 < mpz_val 64 P65 ∧
    mpz_val 64 A64 < mpz_val 64 P65 ∧ mpz_val 64 N5 < mpz_val 64 P65 ∧
    ((∃ r, _mpn_modadd 64 W0 A64 N5 P65 = Outcome.ok r ∧
      0 ≤ r._mp_size ∧ r._mp_size.toNat ≤ r._mp_d.length ∧
      (∀ x ∈ r._mp_d.take r._mp_size.toNat, x < limbBase 64) ∧
      (mpz_val 64 r = 0 ↔ r._mp_size = 0) ∧
      (r._mp_size ≠ 0 → r._mp_d.getD (r._mp_size.toNat - 1) 0 ≠ 0) ∧
      (mpz_val 64 A64 + mpz_val 64 N5 < mpz_val 64 P65 →
        r._mp_size = ((modadd_raw 64 W0 A64 N5).2 : Nat) ∧ r._mp_d = (modadd_raw 64 W0 A64 N5).1)) ∧
    (∃ r, _mpn_modsub 64 W0 A64 N5 P65 = Outcome.ok r ∧
      0 ≤ r._mp_size ∧ r._mp_size.toNat ≤ r._mp_d.length ∧
      (∀ x ∈ r._mp_d.take r._mp_size.toNat, x < limbBase 64) ∧
      (mpz_val 64 r = 0 ↔ r._mp_size = 0) ∧
      (r._mp_size ≠ 0 → r._mp_d.getD (r._mp_size.toNat - 1) 0 ≠ 0))) :=
  ⟨by decide, by decide, by decide, by decide, by decide, by decide,
    C18_results_normalized 64 W0 A64 N5 P65 (by decide) (by decide) (by decide) (by decide)
      (by decide) (by decide)⟩

/-! ## The `ready` flag -/

/-- An object returned by a class method has `ready = 0` and an initialized
curve, whatever the library: `ECurve_dealloc` does not release the curve. -/
theorem ECurve_create_never_ready {Curve : Type} (lib : CurveLib Curve)
    (set_mpz : Curve → Nat → Nat → Nat → Nat → Nat → Nat → Nat → Nat → Int × Curve)
    (allocated : Bool) (args : List PyObject) (rop : ECurve Curve)
    (h : ECurve_create lib set_mpz allocated args = PyResult.ok rop) :
    rop.ready = 0 ∧ rop.ec ≠ none ∧ ECurve_dealloc rop = false := by
  unfold ECurve_create at h
  split at h
  · exact absurd h (by simp)
  · split at h
    · unfold ECurve_new at h
      cases allocated with
      | false => simp at h
      | true =>
        simp only [if_true] at h
        injection h with h
        subst h
        exact ⟨rfl, by simp, rfl⟩
    · exact absurd h (by simp)

/-- An object built by name has `ready = 1` and an initialized curve, whatever
the library: `ECurve_dealloc` releases the curve. -/
theorem ECurve_init_ready {Curve : Type} (lib : CurveLib Curve) (self : ECurve Curve)
    (args : List PyObject) (h : (ECurve_init lib self args).ret = 0) :
    (ECurve_init lib self args).self.ready = 1 ∧ (ECurve_init lib self args).self.ec ≠ none ∧
    ECurve_dealloc (ECurve_init lib self args).self = true := by
  unfold ECurve_init at h ⊢
  split at h
  · simp at h
  · simp only [] at h ⊢
    split at h
    · simp at h
    · rename_i hs
      rw [if_neg hs]
      exact ⟨rfl, by simp, rfl⟩

/-- C17, on the code: on parameters the library accepts (status `0`), each of
the four class methods returns an object with an initialized curve and
`ready = 0`, on which `ECurve_dealloc` does not call `mpECurve_clear`; the
object built by name through `ECurve_init` has `ready = 1` and is cleared. -/
theorem C17_class_method_objects_not_ready :
    setter_status stubLib stubLib.mpECurve_set_mpz_ws validCurveArgs = some 0 ∧
    ECurve_create_ws stubLib true validCurveArgs
      = PyResult.ok ⟨0, some [23, 1, 1, 28, 1, 0, 1, 5]⟩ ∧
    ECurve_create_ed stubLib true validCurveArgs
      = PyResult.ok ⟨0, some [23, 1, 1, 28, 1, 0, 1, 5]⟩ ∧
    ECurve_create_mo stubLib true validCurveArgs
      = PyResult.ok ⟨0, some [23, 1, 1, 28, 1, 0, 1, 5]⟩ ∧
    ECurve_create_te stubLib true validCurveArgs
      = PyResult.ok ⟨0, some [23, 1, 1, 28, 1, 0, 1, 5]⟩ ∧
    ECurve_dealloc (⟨0, some [23, 1, 1, 28, 1, 0, 1, 5]⟩ : ECurve (List Nat)) = false ∧
    ECurve_init stubLib ⟨0, none⟩ [PyObject.str "secp256k1"] = ⟨0, none, ⟨1, some [1]⟩⟩ ∧
    ECurve_dealloc (⟨1, some [1]⟩ : ECurve (List Nat)) = true := by
  decide

end Ecclib
